import Mathlib

/-!
Verification of the fuzz-test harness and the tablet storage engine it
exercises (`src/kudu/integration-tests/fuzz-itest.cc`), plus the RPC
`ConnectionId` value class (`src/kudu/rpc/connection_id.cc`).

Conventions used throughout:
* `ExpectedKeyValueRow` mirrors the harness struct of the same name
  (an `int32` key plus an optional `int32` value column).
* Timestamps are logical-clock values, modelled as `Nat` (the harness runs
  the server with `use_hybrid_clock = false`, so timestamps are the values
  of a monotone counter and are never negative).
* A `RowState` is the state of one primary key at one timestamp:
  `none` means the key is absent (never inserted, or tombstoned),
  `some v` means a live row whose nullable value column holds `v`.
* A `Chain` is a per-key list of materialized states `(ts, state)`,
  ordered by ascending timestamp: entry `(t, s)` says "from commit
  timestamp `t` on, the key's state is `s` (until the next entry)".
-/

namespace KuduFuzz

/-- Mirrors the harness's `ExpectedKeyValueRow` from
`kudu/tablet/key_value_test_schema.h`: an `int32` key and a nullable
`int32` value column (`boost::optional<int32_t> val`). -/
structure ExpectedKeyValueRow where
  key : Int
  val : Option Int
deriving DecidableEq, Repr

/-- State of a single primary key at some timestamp: `none` = no live row,
`some v` = live row whose value column is `v` (`v = none` meaning SQL NULL). -/
abbrev RowState := Option (Option Int)

/-- Per-key history: `(ts, state)` entries in ascending timestamp order. -/
abbrev Chain := List (Nat × RowState)

/-- The state after applying all entries of `c` in order, starting from `b`. -/
def lastState (c : Chain) (b : RowState) : RowState :=
  match c.getLast? with
  | some e => e.2
  | none => b

/-- The state a chain gives for snapshot timestamp `T`: the last entry with
timestamp `≤ T`, or `none` (absent) when no entry is that old.  This is the
MVCC reading of a mutation history. -/
def histAt (c : Chain) (T : Nat) : RowState :=
  lastState (c.filter (fun e => decide (e.1 ≤ T))) none

/-- A chain is well ordered when its timestamps are strictly ascending. -/
def ChainAsc (c : Chain) : Prop :=
  c.Pairwise (fun a b => a.1 < b.1)

instance (c : Chain) : Decidable (ChainAsc c) := by
  unfold ChainAsc; infer_instance

theorem lastState_append (a b : Chain) (d : RowState) :
    lastState (a ++ b) d = lastState b (lastState a d) := by
  cases hb : b.getLast? with
  | none =>
    have hb' : b = [] := by
      cases b with
      | nil => rfl
      | cons x xs => simp [List.getLast?_concat, List.getLast?] at hb
    subst hb'
    simp [lastState]
  | some e =>
    have : (a ++ b).getLast? = some e := by
      rw [List.getLast?_append_of_ne_nil]
      · exact hb
      · intro h; subst h; simp at hb
    simp [lastState, this, hb]

theorem lastState_cons (x : Nat × RowState) (l : Chain) (d : RowState) :
    lastState (x :: l) d = lastState l x.2 := by
  have : (x :: l) = [x] ++ l := rfl
  rw [this, lastState_append]
  simp [lastState]

theorem lastState_ne_nil (l : Chain) (d d' : RowState) (h : l ≠ []) :
    lastState l d = lastState l d' := by
  cases hl : l.getLast? with
  | none => exact absurd (List.getLast?_eq_none_iff.mp hl) h
  | some e => simp [lastState, hl]

/-!
## Snapshot-scan comparison (`FuzzTest::CheckRowsMatchAtTimestamp`)

Translated from `fuzz-itest.cc` lines 329-380.  The harness keeps
`saved_values_ : map<int, vector<optional<ExpectedKeyValueRow>>, std::greater<int>>`,
a map from recorded timestamps to the shadow snapshot taken at that
timestamp, iterated in *descending* key order.  We model it as an
association list sorted by strictly descending timestamp;
`upper_bound(timestamp)` on a `std::greater`-ordered map returns the first
entry (in descending order) whose key is strictly less than `timestamp`,
which is `List.find?` below.

Error messages are modelled as a constructor per `Substitute` call site so
that the error list's emptiness and order are preserved without string
formatting.
-/

/-- One error pushed by `CheckRowsMatchAtTimestamp`; a constructor per
`Substitute(...)` call site in the source. -/
inductive ScanCheckError where
  /-- "Found unexpected row: $0" -/
  | foundUnexpectedRow (row : ExpectedKeyValueRow)
  /-- "Didn't find expected value: $0" -/
  | didNotFindExpectedValue (row : ExpectedKeyValueRow)
  /-- "Mismached key. Expected: $0 Found: $1" -/
  | mismatchedKey (expected found : ExpectedKeyValueRow)
  /-- "Mismached value. Expected: $0 Found: $1" -/
  | mismatchedValue (expected found : ExpectedKeyValueRow)
  /-- "Mismatched size. Expected: $0 rows. Found: $1 rows." -/
  | mismatchedSize (expected found : Nat)
  /-- "Found errors while comparing a snapshot scan at $0 with the values saved at $1" -/
  | scanMismatchHeader (timestamp : Nat) (savedTimestamp : Int)
deriving DecidableEq, Repr

/-- The shadow snapshot type: one entry per key of the keyspace,
`none` when that key holds no live row at the recorded timestamp. -/
abbrev SavedSnapshot := List (Option ExpectedKeyValueRow)

/-- The saved-values map: timestamp/snapshot pairs in descending timestamp
order (mirroring the `std::greater<int>` comparator of `saved_values_`). -/
abbrev SavedValues := List (Nat × SavedSnapshot)

/-- The comparison loop of `CheckRowsMatchAtTimestamp` (lines 343-366):
walks the saved snapshot; each non-empty expected entry consumes the next
found row (`rows_found[found_idx++]`, modelled by consuming the head of the
remaining found-row list) and is compared by key then value.  Returns the
errors pushed plus the final `expected_values_counter`.  When the found rows
run out the loop pushes one error and `break`s (remaining expected entries
are not counted). -/
def checkRowsLoop : SavedSnapshot → List ExpectedKeyValueRow → List ScanCheckError × Nat
  | [], _ => ([], 0)
  | none :: rest, found => checkRowsLoop rest found
  | some expected :: _, [] => ([.didNotFindExpectedValue expected], 1)
  | some expected :: rest, f :: fs =>
    let r := checkRowsLoop rest fs
    if expected.key ≠ f.key then (.mismatchedKey expected f :: r.1, r.2 + 1)
    else if expected.val ≠ f.val then (.mismatchedValue expected f :: r.1, r.2 + 1)
    else (r.1, r.2 + 1)

/-- Translated from `FuzzTest::CheckRowsMatchAtTimestamp` (lines 329-380).
Selects `saved_values_.upper_bound(timestamp)` — the entry with the greatest
recorded timestamp strictly less than `timestamp` — and compares `rows_found`
against it; with no such entry every found row is an error.  On any error a
header line is pushed to the front (line 376). -/
def checkRowsMatchAtTimestamp (saved : SavedValues) (timestamp : Nat)
    (rows_found : List ExpectedKeyValueRow) : List ScanCheckError :=
  let body : List ScanCheckError × Int :=
    match saved.find? (fun p => decide (p.1 < timestamp)) with
    | none => (rows_found.map .foundUnexpectedRow, -1)
    | some p =>
      let r := checkRowsLoop p.2 rows_found
      (r.1 ++ (if rows_found.length ≠ r.2 then
                 .mismatchedSize r.2 rows_found.length :: rows_found.map .foundUnexpectedRow
               else []),
       (p.1 : Int))
  if body.1 = [] then [] else .scanMismatchHeader timestamp body.2 :: body.1

/-- The rows a snapshot scan at `timestamp` is expected to return, per the
harness's shadow model: the non-deleted entries, in keyspace order, of the
saved snapshot with the greatest timestamp strictly below `timestamp`;
no rows at all when no snapshot is that old. -/
def expectedRowsAt (saved : SavedValues) (timestamp : Nat) :
    List ExpectedKeyValueRow :=
  match saved.find? (fun p => decide (p.1 < timestamp)) with
  | none => []
  | some p => p.2.filterMap id

theorem checkRowsLoop_spec (snap : SavedSnapshot) (rows : List ExpectedKeyValueRow) :
    ((checkRowsLoop snap rows).1 = [] ∧ (checkRowsLoop snap rows).2 = rows.length) ↔
      rows = snap.filterMap id := by
  induction snap generalizing rows with
  | nil =>
    cases rows <;> simp [checkRowsLoop]
  | cons e rest ih =>
    cases e with
    | none =>
      simpa [checkRowsLoop] using ih rows
    | some expected =>
      cases rows with
      | nil => simp [checkRowsLoop]
      | cons f fs =>
        by_cases hk : expected.key = f.key
        · by_cases hv : expected.val = f.val
          · have hef : expected = f := by
              cases expected; cases f; simp_all
            subst hef
            simp only [checkRowsLoop, if_neg (by simp : ¬expected.key ≠ expected.key),
              if_neg (by simp : ¬expected.val ≠ expected.val)]
            constructor
            · rintro ⟨h1, h2⟩
              simp only [List.length_cons] at h2
              have := (ih fs).mp ⟨h1, by omega⟩
              simp [List.filterMap_cons, ← this]
            · intro h
              simp only [List.filterMap_cons_some, id] at h
              obtain ⟨-, h2⟩ := List.cons.inj h
              have := (ih fs).mpr h2
              refine ⟨this.1, ?_⟩
              simp only [List.length_cons]
              omega
          · simp only [checkRowsLoop, if_neg (by simp [hk] : ¬expected.key ≠ f.key),
              if_pos (by simpa using hv)]
            constructor
            · rintro ⟨h1, -⟩; simp at h1
            · intro h
              simp only [List.filterMap_cons_some, id] at h
              obtain ⟨hef, -⟩ := List.cons.inj h
              subst hef
              exact absurd rfl hv
        · simp only [checkRowsLoop, if_pos (by simpa using hk)]
          constructor
          · rintro ⟨h1, -⟩; simp at h1
          · intro h
            simp only [List.filterMap_cons_some, id] at h
            obtain ⟨hef, -⟩ := List.cons.inj h
            subst hef
            exact absurd rfl hk

theorem checkRowsMatch_eq_nil_iff (saved : SavedValues) (timestamp : Nat)
    (rows : List ExpectedKeyValueRow) :
    checkRowsMatchAtTimestamp saved timestamp rows = [] ↔
      rows = expectedRowsAt saved timestamp := by
  unfold checkRowsMatchAtTimestamp expectedRowsAt
  cases hf : saved.find? (fun p => decide (p.1 < timestamp)) with
  | none =>
    cases rows <;> simp
  | some p =>
    simp only []
    by_cases hsz : rows.length = (checkRowsLoop p.2 rows).2
    · have := checkRowsLoop_spec p.2 rows
      by_cases he : (checkRowsLoop p.2 rows).1 = []
      · simp only [if_neg (by omega : ¬rows.length ≠ (checkRowsLoop p.2 rows).2),
          List.append_nil, he]
        simp only [he, true_and] at this
        constructor
        · intro _; exact this.mp hsz.symm
        · intro _; rfl
      · simp only [if_neg (by omega : ¬rows.length ≠ (checkRowsLoop p.2 rows).2),
          List.append_nil]
        constructor
        · intro h
          rw [if_neg he] at h
          exact absurd h (by simp)
        · intro h
          exact absurd (this.mpr h).1 he
    · constructor
      · intro h
        rw [if_neg] at h
        · exact absurd h (by simp)
        · simp [if_pos (by omega : rows.length ≠ (checkRowsLoop p.2 rows).2)]
      · intro h
        have := (checkRowsLoop_spec p.2 rows).mpr h
        omega

theorem find?_desc_greatest {saved : SavedValues} {t : Nat} {p : Nat × SavedSnapshot}
    (hd : saved.Pairwise (fun a b => b.1 < a.1))
    (hf : saved.find? (fun q => decide (q.1 < t)) = some p) :
    ∀ q ∈ saved, q.1 < t → q.1 ≤ p.1 := by
  induction saved with
  | nil => simp at hf
  | cons a rest ih =>
    rw [List.pairwise_cons] at hd
    by_cases ha : a.1 < t
    · rw [List.find?_cons_of_pos _ (by simpa using ha)] at hf
      cases hf
      intro q hq _
      rcases List.mem_cons.mp hq with rfl | hq
      · exact le_refl _
      · exact le_of_lt (hd.1 q hq)
    · rw [List.find?_cons_of_neg _ (by simpa using ha)] at hf
      intro q hq hqt
      rcases List.mem_cons.mp hq with rfl | hq
      · exact absurd hqt ha
      · exact ih hd.2 hf q hq hqt

/-- C1: a snapshot scan at timestamp `T` must return exactly the shadow
model's rows for `T`.  `CheckRowsMatchAtTimestamp(T, rows_found, errors)`
leaves `errors` empty iff `rows_found` equals, element by element and in
order, the non-deleted entries of the saved snapshot it selects — the entry
of the descending-ordered `saved_values_` map with the greatest timestamp
strictly less than `T` — and when no recorded timestamp is strictly below
`T`, iff the scan returned no rows at all. -/
theorem snapshot_scan_matches_shadow (saved : SavedValues)
    (hd : saved.Pairwise (fun a b => b.1 < a.1)) (t : Nat)
    (rows : List ExpectedKeyValueRow) :
    (checkRowsMatchAtTimestamp saved t rows = [] ↔ rows = expectedRowsAt saved t)
    ∧ (saved.find? (fun q => decide (q.1 < t)) = none →
        (∀ q ∈ saved, ¬ q.1 < t) ∧
        (checkRowsMatchAtTimestamp saved t rows = [] ↔ rows = []))
    ∧ (∀ p, saved.find? (fun q => decide (q.1 < t)) = some p →
        p ∈ saved ∧ p.1 < t ∧ (∀ q ∈ saved, q.1 < t → q.1 ≤ p.1) ∧
        (checkRowsMatchAtTimestamp saved t rows = [] ↔ rows = p.2.filterMap id)) := by
  refine ⟨checkRowsMatch_eq_nil_iff saved t rows, ?_, ?_⟩
  · intro hnone
    refine ⟨?_, ?_⟩
    · intro q hq
      have := List.find?_eq_none.mp hnone q hq
      simpa using this
    · rw [checkRowsMatch_eq_nil_iff]
      unfold expectedRowsAt
      rw [hnone]
  · intro p hp
    refine ⟨List.mem_of_find?_eq_some hp, ?_, find?_desc_greatest hd hp, ?_⟩
    · have := List.find?_some hp
      simpa using this
    · rw [checkRowsMatch_eq_nil_iff]
      unfold expectedRowsAt
      rw [hp]

/-- A concrete saved-values map used by the C1 witness. -/
def c1SavedExample : SavedValues :=
  [(5, [some ⟨0, some 2⟩, none]), (2, [none, some ⟨1, none⟩])]

theorem snapshot_scan_matches_shadow_witness :
    c1SavedExample.Pairwise (fun a b => b.1 < a.1) ∧
    ((checkRowsMatchAtTimestamp c1SavedExample 6 [⟨0, some 2⟩] = [] ↔
        [(⟨0, some 2⟩ : ExpectedKeyValueRow)] = expectedRowsAt c1SavedExample 6)
     ∧ (c1SavedExample.find? (fun q => decide (q.1 < 6)) = none →
         (∀ q ∈ c1SavedExample, ¬ q.1 < 6) ∧
         (checkRowsMatchAtTimestamp c1SavedExample 6 [⟨0, some 2⟩] = [] ↔
           [(⟨0, some 2⟩ : ExpectedKeyValueRow)] = []))
     ∧ (∀ p, c1SavedExample.find? (fun q => decide (q.1 < 6)) = some p →
         p ∈ c1SavedExample ∧ p.1 < 6 ∧ (∀ q ∈ c1SavedExample, q.1 < 6 → q.1 ≤ p.1) ∧
         (checkRowsMatchAtTimestamp c1SavedExample 6 [⟨0, some 2⟩] = [] ↔
           [(⟨0, some 2⟩ : ExpectedKeyValueRow)] = p.2.filterMap id))) :=
  ⟨by decide, snapshot_scan_matches_shadow c1SavedExample (by decide) 6 [⟨0, some 2⟩]⟩

/-!
## Harness write-op construction (`InsertOrUpsertRow`, `MutateRow`)
-/

/-- Mirrors the harness's `TestOpType` enum (lines 54-70). -/
inductive TestOpType where
  | TEST_INSERT
  | TEST_INSERT_PK_ONLY
  | TEST_UPSERT
  | TEST_UPSERT_PK_ONLY
  | TEST_UPDATE
  | TEST_DELETE
  | TEST_FLUSH_OPS
  | TEST_FLUSH_TABLET
  | TEST_FLUSH_DELTAS
  | TEST_MINOR_COMPACT_DELTAS
  | TEST_MAJOR_COMPACT_DELTAS
  | TEST_COMPACT_TABLET
  | TEST_RESTART_TS
  | TEST_SCAN_AT_TIMESTAMP
deriving DecidableEq, Repr

/-- The value-column cell a write op carries: `none` = column left unset,
`some none` = `SetNull(1)`, `some (some v)` = `SetInt32(1, v)`. -/
abbrev ValueCell := Option (Option Int)

/-- Translated from `FuzzTest::InsertOrUpsertRow` (lines 237-273): builds
the insert/upsert op for `key`/`val` and returns the cell it sets on the
value column together with the expected row contents `ret`.  `val & 1` is
written `val % 2 ≠ 0` (the low bit of a two's complement int is its
nonnegative residue mod 2).  `old_row` is the caller's pending value for
the key, read only by `TEST_UPSERT_PK_ONLY`.  The `default` switch arm is
`LOG(FATAL)` in the source, unreachable from the harness's call site. -/
def InsertOrUpsertRow (key : Int) (val : Int) (old_row : Option ExpectedKeyValueRow)
    (type : TestOpType) : ValueCell × ExpectedKeyValueRow :=
  match type with
  | .TEST_INSERT | .TEST_UPSERT =>
    if val % 2 ≠ 0 then (some none, ⟨key, none⟩)
    else (some (some val), ⟨key, some val⟩)
  | .TEST_INSERT_PK_ONLY => (none, ⟨key, none⟩)
  | .TEST_UPSERT_PK_ONLY =>
    (none, ⟨key, match old_row with | some r => r.val | none => none⟩)
  | _ => (none, ⟨key, none⟩)

/-- Translated from `FuzzTest::MutateRow` (lines 277-291): builds the update
op for `key`/`new_val` (a `uint32_t`, whose low bit `new_val & 1` is written
`new_val % 2 ≠ 0`) and returns the cell set on the value column together
with the expected row contents. -/
def MutateRow (key : Int) (new_val : Nat) : ValueCell × ExpectedKeyValueRow :=
  if new_val % 2 ≠ 0 then (some none, ⟨key, none⟩)
  else (some (some (new_val : Int)), ⟨key, some (new_val : Int)⟩)

/-- Modelled from the spec: server-side resolution of one client write op
against the current state of its primary key — the tablet write path itself
is not under `src/`.  Follows §3 "Mutation" (`UPSERT` resolves at apply time
to `INSERT` or `UPDATE`; a PK-only upsert against an existing row produces
an empty-changelist update, against a tombstoned row a `REINSERT`), §4.3
(`Insert` fails with `AlreadyPresent` on a live key, `Mutate` with
`NotFound` on an absent one), §6 (unset nullable columns of an insert
become NULL) and §9 (empty changelists are accepted as no-op updates).
`cur` is the key's current state and `cell` the value-column cell carried
by the op; columns the op leaves unset keep their old value.  `none` means
the op is rejected with a per-row error. -/
def applyWrite (cur : RowState) (type : TestOpType) (cell : ValueCell) :
    Option RowState :=
  match type with
  | .TEST_INSERT | .TEST_INSERT_PK_ONLY =>
    match cur with
    | some _ => none
    | none => some (some (cell.getD none))
  | .TEST_UPSERT | .TEST_UPSERT_PK_ONLY =>
    match cur with
    | some old => some (some (cell.getD old))
    | none => some (some (cell.getD none))
  | .TEST_UPDATE =>
    match cur with
    | some old => some (some (cell.getD old))
    | none => none
  | .TEST_DELETE =>
    match cur with
    | some _ => some none
    | none => none
  | _ => none

/-- C4: a PK-only upsert leaves an existing row's value column unchanged and
inserts a row whose value column is NULL when the key is absent; the
expected row the harness computes for `TEST_UPSERT_PK_ONLY` is exactly
`old_row`'s value when `old_row` is present and none otherwise. -/
theorem upsert_pk_only_preserves_value (key : Int) (val : Int)
    (old_row : Option ExpectedKeyValueRow) :
    InsertOrUpsertRow key val old_row .TEST_UPSERT_PK_ONLY
      = (none, ⟨key, match old_row with | some r => r.val | none => none⟩)
    ∧ (∀ v : Option Int,
        applyWrite (some v) .TEST_UPSERT_PK_ONLY
            (InsertOrUpsertRow key val old_row .TEST_UPSERT_PK_ONLY).1
          = some (some v))
    ∧ applyWrite none .TEST_UPSERT_PK_ONLY
          (InsertOrUpsertRow key val old_row .TEST_UPSERT_PK_ONLY).1
        = some (some none) := by
  refine ⟨rfl, ?_, rfl⟩
  intro v
  rfl

/-- C5: the harness's value-encoding rule — for an INSERT, UPSERT or UPDATE
issued with sequence value `v`, the value column is set to `v` and the
expected row records `v` when `v` is even, and the column is set to NULL
and the expected row records a null value when `v` is odd; identically in
`InsertOrUpsertRow` and `MutateRow`. -/
theorem value_encoding_even_odd (key : Int) (v : Nat)
    (old_row : Option ExpectedKeyValueRow) :
    InsertOrUpsertRow key (v : Int) old_row .TEST_INSERT
      = (if v % 2 = 0 then (some (some (v : Int)), ⟨key, some (v : Int)⟩)
         else (some none, ⟨key, none⟩))
    ∧ InsertOrUpsertRow key (v : Int) old_row .TEST_UPSERT
      = (if v % 2 = 0 then (some (some (v : Int)), ⟨key, some (v : Int)⟩)
         else (some none, ⟨key, none⟩))
    ∧ MutateRow key v
      = (if v % 2 = 0 then (some (some (v : Int)), ⟨key, some (v : Int)⟩)
         else (some none, ⟨key, none⟩)) := by
  have hcast : ((v : Int) % 2 ≠ 0) ↔ (v % 2 ≠ 0) := by omega
  by_cases hv : v % 2 = 0
  · have h1 : ¬ ((v : Int) % 2 ≠ 0) := by omega
    have h2 : ¬ (v % 2 ≠ 0) := by omega
    simp only [InsertOrUpsertRow, MutateRow, if_neg h1, if_neg h2, if_pos hv]
    exact ⟨trivial, trivial, trivial⟩
  · have h1 : (v : Int) % 2 ≠ 0 := by omega
    have h2 : v % 2 ≠ 0 := by omega
    simp only [InsertOrUpsertRow, MutateRow, if_pos h1, if_pos h2, if_neg hv]
    exact ⟨trivial, trivial, trivial⟩

/-!
## Test-case generation (`GenerateTestCase`) and validation (`ValidateFuzzCase`)

`rand()` is modelled by passing the random draws explicitly: one `GenDraw`
per loop iteration, holding the values of the up to three `rand()` calls an
iteration can make.  The C++ loop runs until enough ops exist; with an
explicit finite draw stream the generator returns `none` when the stream is
exhausted first.
-/

/-- Mirrors the harness's `struct TestOp`: an op type plus the row key (for
mutations) or the scan timestamp (for `TEST_SCAN_AT_TIMESTAMP`). -/
structure TestOp where
  type : TestOpType
  val : Nat
deriving DecidableEq, Repr

/-- `kAllOps` (lines 135-148). -/
def kAllOps : List TestOpType :=
  [.TEST_INSERT, .TEST_INSERT_PK_ONLY, .TEST_UPSERT, .TEST_UPSERT_PK_ONLY,
   .TEST_UPDATE, .TEST_DELETE, .TEST_FLUSH_OPS, .TEST_FLUSH_TABLET,
   .TEST_FLUSH_DELTAS, .TEST_MINOR_COMPACT_DELTAS, .TEST_MAJOR_COMPACT_DELTAS,
   .TEST_COMPACT_TABLET, .TEST_RESTART_TS, .TEST_SCAN_AT_TIMESTAMP]

/-- `kPkOnlyOps` (lines 150-160). -/
def kPkOnlyOps : List TestOpType :=
  [.TEST_INSERT_PK_ONLY, .TEST_UPSERT_PK_ONLY, .TEST_DELETE, .TEST_FLUSH_OPS,
   .TEST_FLUSH_TABLET, .TEST_FLUSH_DELTAS, .TEST_MINOR_COMPACT_DELTAS,
   .TEST_MAJOR_COMPACT_DELTAS, .TEST_COMPACT_TABLET, .TEST_RESTART_TS,
   .TEST_SCAN_AT_TIMESTAMP]

/-- Mirrors enum `TestOpSets` (lines 441-445). -/
inductive TestOpSets where
  | ALL
  | PK_ONLY
deriving DecidableEq, Repr

/-- Translated from `PickOpAtRandom` (lines 447-454), with the `rand()`
value passed as `draw`. -/
def PickOpAtRandom (sets : TestOpSets) (draw : Nat) : TestOpType :=
  match sets with
  | .ALL => kAllOps.getD (draw % kAllOps.length) .TEST_INSERT
  | .PK_ONLY => kPkOnlyOps.getD (draw % kPkOnlyOps.length) .TEST_INSERT

/-- Translated from `IsMutation` (lines 456-468). -/
def IsMutation (op : TestOpType) : Bool :=
  match op with
  | .TEST_INSERT | .TEST_INSERT_PK_ONLY | .TEST_UPSERT | .TEST_UPSERT_PK_ONLY
  | .TEST_UPDATE | .TEST_DELETE => true
  | _ => false

/-- The generator's loop state: the ops emitted so far plus the local
trackers declared at the top of `GenerateTestCase` (lines 473-478);
`rowExists` is `vector<bool> exists(FLAGS_keyspace_size)`. -/
structure GenState where
  ops : List TestOp
  rowExists : List Bool
  op_timestamps : Nat
  ops_pending : Bool
  data_in_mrs : Bool
  worth_compacting : Bool
  data_in_dms : Bool
deriving DecidableEq, Repr

/-- The values of the up to three `rand()` calls one generator-loop
iteration can make: the op pick, the row key, and the scan-timestamp pick. -/
structure GenDraw where
  opDraw : Nat
  keyDraw : Nat
  tsDraw : Nat
deriving DecidableEq, Repr

/-- One iteration of the `GenerateTestCase` loop body (lines 480-589):
picks the op and the row key, bumps `op_timestamps` for mutations — this
happens before the switch, so it also counts mutations whose branch
`continue`s without emitting an op, exactly as in the source — then runs
the switch.  A `continue` is returning the state unchanged (beyond the
`op_timestamps` bump). -/
def genStep (keyspace : Nat) (sets : TestOpSets) (st : GenState) (d : GenDraw) :
    GenState :=
  let r := PickOpAtRandom sets d.opDraw
  let row_key := d.keyDraw % keyspace
  let st := if IsMutation r then { st with op_timestamps := st.op_timestamps + 1 } else st
  match r with
  | .TEST_INSERT | .TEST_INSERT_PK_ONLY =>
    if st.rowExists.getD row_key false then st
    else { st with ops := st.ops ++ [⟨r, row_key⟩],
                   rowExists := st.rowExists.set row_key true,
                   ops_pending := true, data_in_mrs := true }
  | .TEST_UPSERT | .TEST_UPSERT_PK_ONLY =>
    let st := { st with ops := st.ops ++ [⟨r, row_key⟩],
                        rowExists := st.rowExists.set row_key true,
                        ops_pending := true }
    -- The source tests `!exists[row_key]` after having just set it to true,
    -- so its `data_in_mrs` branch is dead code and the `else if` decides.
    if ¬ (st.rowExists.getD row_key false) then { st with data_in_mrs := true }
    else if ¬ st.data_in_mrs then { st with data_in_dms := true }
    else st
  | .TEST_UPDATE =>
    if ¬ (st.rowExists.getD row_key false) then st
    else
      let st := { st with ops := st.ops ++ [⟨.TEST_UPDATE, row_key⟩],
                          ops_pending := true }
      if ¬ st.data_in_mrs then { st with data_in_dms := true } else st
  | .TEST_DELETE =>
    if ¬ (st.rowExists.getD row_key false) then st
    else
      let st := { st with ops := st.ops ++ [⟨.TEST_DELETE, row_key⟩],
                          ops_pending := true,
                          rowExists := st.rowExists.set row_key false }
      if ¬ st.data_in_mrs then { st with data_in_dms := true } else st
  | .TEST_FLUSH_OPS =>
    if st.ops_pending then
      { st with ops := st.ops ++ [⟨.TEST_FLUSH_OPS, 0⟩], ops_pending := false,
                op_timestamps := st.op_timestamps + 1 }
    else st
  | .TEST_FLUSH_TABLET =>
    if st.data_in_mrs then
      let st := if st.ops_pending then
          { st with ops := st.ops ++ [⟨.TEST_FLUSH_OPS, 0⟩], ops_pending := false }
        else st
      { st with ops := st.ops ++ [⟨.TEST_FLUSH_TABLET, 0⟩],
                data_in_mrs := false, worth_compacting := true }
    else st
  | .TEST_COMPACT_TABLET =>
    if st.worth_compacting then
      let st := if st.ops_pending then
          { st with ops := st.ops ++ [⟨.TEST_FLUSH_OPS, 0⟩], ops_pending := false }
        else st
      { st with ops := st.ops ++ [⟨.TEST_COMPACT_TABLET, 0⟩],
                worth_compacting := false }
    else st
  | .TEST_FLUSH_DELTAS =>
    if st.data_in_dms then
      let st := if st.ops_pending then
          { st with ops := st.ops ++ [⟨.TEST_FLUSH_OPS, 0⟩], ops_pending := false }
        else st
      { st with ops := st.ops ++ [⟨.TEST_FLUSH_DELTAS, 0⟩], data_in_dms := false }
    else st
  | .TEST_MAJOR_COMPACT_DELTAS =>
    { st with ops := st.ops ++ [⟨.TEST_MAJOR_COMPACT_DELTAS, 0⟩] }
  | .TEST_MINOR_COMPACT_DELTAS =>
    { st with ops := st.ops ++ [⟨.TEST_MINOR_COMPACT_DELTAS, 0⟩] }
  | .TEST_RESTART_TS =>
    { st with ops := st.ops ++ [⟨.TEST_RESTART_TS, 0⟩] }
  | .TEST_SCAN_AT_TIMESTAMP =>
    let timestamp := if 0 < st.op_timestamps then d.tsDraw % st.op_timestamps + 1 else 1
    { st with ops := st.ops ++ [⟨.TEST_SCAN_AT_TIMESTAMP, timestamp⟩] }

/-- The `while (ops->size() < len)` loop of `GenerateTestCase`, consuming
one draw per iteration; `none` when the draw stream runs out first. -/
def genLoop (keyspace len : Nat) (sets : TestOpSets) :
    List GenDraw → GenState → Option (List TestOp)
  | draws, st =>
    if len ≤ st.ops.length then some st.ops
    else
      match draws with
      | [] => none
      | d :: rest => genLoop keyspace len sets rest (genStep keyspace sets st d)

/-- The generator's initial state (`ops->clear()` plus the local variable
initializers of lines 473-478). -/
def genInit (keyspace : Nat) : GenState :=
  { ops := [], rowExists := List.replicate keyspace false, op_timestamps := 0,
    ops_pending := false, data_in_mrs := false, worth_compacting := false,
    data_in_dms := false }

/-- Translated from `GenerateTestCase` (lines 472-590).  `opsIn` is the
caller's vector, cleared first (`ops->clear()`), so the result does not
depend on it; `keyspace` is `FLAGS_keyspace_size`.  In the source
`ops->size() < len` compares a `size_t` against an `int` converted to
`size_t`, so `len` is a `Nat`. -/
def GenerateTestCase (opsIn : List TestOp) (keyspace len : Nat)
    (sets : TestOpSets) (draws : List GenDraw) : Option (List TestOp) :=
  genLoop keyspace len sets draws (genInit keyspace)

/-- One iteration of `FuzzTest::ValidateFuzzCase`'s loop (lines 602-623);
`none` models a failing `CHECK`. -/
def validateStep (rowExists : List Bool) (op : TestOp) : Option (List Bool) :=
  match op.type with
  | .TEST_INSERT | .TEST_INSERT_PK_ONLY =>
    -- CHECK(!exists[test_op.val]) << "invalid case: inserting already-existing row"
    if rowExists.getD op.val false then none
    else some (rowExists.set op.val true)
  | .TEST_UPSERT | .TEST_UPSERT_PK_ONLY => some (rowExists.set op.val true)
  | .TEST_UPDATE =>
    -- CHECK(exists[test_op.val]) << "invalid case: updating non-existing row"
    if rowExists.getD op.val false then some rowExists else none
  | .TEST_DELETE =>
    -- CHECK(exists[test_op.val]) << "invalid case: deleting non-existing row"
    if rowExists.getD op.val false then some (rowExists.set op.val false) else none
  | _ => some rowExists

/-- The loop of `ValidateFuzzCase`, threading the `exists` vector. -/
def validateLoop : List TestOp → List Bool → Option (List Bool)
  | [], rowExists => some rowExists
  | op :: rest, rowExists =>
    match validateStep rowExists op with
    | some rowExists' => validateLoop rest rowExists'
    | none => none

/-- Translated from `FuzzTest::ValidateFuzzCase` (lines 600-624): `true`
iff none of its `CHECK` assertions fails. -/
def ValidateFuzzCase (keyspace : Nat) (test_ops : List TestOp) : Bool :=
  (validateLoop test_ops (List.replicate keyspace false)).isSome

/-- One step of the spec's fuzzing contract, checked over an op sequence:
never insert a live key, never update or delete an absent key, never emit a
`TEST_FLUSH_OPS` when no mutation is pending since the previous flush.  The
state is the live-key vector plus the pending flag. -/
def contractStep (s : List Bool × Bool) (op : TestOp) : Option (List Bool × Bool) :=
  match op.type with
  | .TEST_INSERT | .TEST_INSERT_PK_ONLY =>
    if s.1.getD op.val false then none else some (s.1.set op.val true, true)
  | .TEST_UPSERT | .TEST_UPSERT_PK_ONLY => some (s.1.set op.val true, true)
  | .TEST_UPDATE => if s.1.getD op.val false then some (s.1, true) else none
  | .TEST_DELETE =>
    if s.1.getD op.val false then some (s.1.set op.val false, true) else none
  | .TEST_FLUSH_OPS => if s.2 then some (s.1, false) else none
  | _ => some s

/-- The fuzzing-contract checker's loop. -/
def contractLoop : List TestOp → (List Bool × Bool) → Option (List Bool × Bool)
  | [], s => some s
  | op :: rest, s =>
    match contractStep s op with
    | some s' => contractLoop rest s'
    | none => none

/-- The spec's fuzzing contract as a predicate on op sequences. -/
def FuzzContract (keyspace : Nat) (ops : List TestOp) : Bool :=
  (contractLoop ops (List.replicate keyspace false, false)).isSome

theorem contractLoop_append (l1 l2 : List TestOp) (s : List Bool × Bool) :
    contractLoop (l1 ++ l2) s =
      match contractLoop l1 s with
      | some s' => contractLoop l2 s'
      | none => none := by
  induction l1 generalizing s with
  | nil => simp [contractLoop]
  | cons op rest ih =>
    simp only [List.cons_append, contractLoop]
    cases contractStep s op with
    | none => rfl
    | some s' => exact ih s'

theorem validateLoop_append (l1 l2 : List TestOp) (ex : List Bool) :
    validateLoop (l1 ++ l2) ex =
      match validateLoop l1 ex with
      | some ex' => validateLoop l2 ex'
      | none => none := by
  induction l1 generalizing ex with
  | nil => simp [validateLoop]
  | cons op rest ih =>
    simp only [List.cons_append, validateLoop]
    cases validateStep ex op with
    | none => rfl
    | some ex' => exact ih ex'

theorem contractStep_to_validateStep (ex : List Bool) (p : Bool) (op : TestOp)
    (s' : List Bool × Bool) (h : contractStep (ex, p) op = some s') :
    validateStep ex op = some s'.1 := by
  cases hop : op.type <;>
    simp only [contractStep, hop, validateStep] at h ⊢ <;>
    (try split_ifs at h ⊢) <;>
    (try cases h) <;>
    simp_all

theorem contract_implies_validate (ops : List TestOp) :
    ∀ ex p s', contractLoop ops (ex, p) = some s' →
      validateLoop ops ex = some s'.1 := by
  induction ops with
  | nil =>
    intro ex p s' h
    simp only [contractLoop, Option.some.injEq] at h
    simp [validateLoop, ← h]
  | cons op rest ih =>
    intro ex p s' h
    simp only [contractLoop] at h
    simp only [validateLoop]
    cases hs : contractStep (ex, p) op with
    | none => rw [hs] at h; exact absurd h (by simp)
    | some s1 =>
      rw [hs] at h
      rw [contractStep_to_validateStep ex p op s1 hs]
      exact ih s1.1 s1.2 s' h

theorem contractLoop_snoc (ops : List TestOp) (op : TestOp)
    (s0 s1 : List Bool × Bool) (h : contractLoop ops s0 = some s1) :
    contractLoop (ops ++ [op]) s0 = contractStep s1 op := by
  rw [contractLoop_append, h]
  cases hc : contractStep s1 op <;> simp [contractLoop, hc]

theorem genStep_contract (keyspace : Nat) (sets : TestOpSets) (st : GenState)
    (d : GenDraw)
    (h : contractLoop st.ops (List.replicate keyspace false, false)
           = some (st.rowExists, st.ops_pending)) :
    contractLoop (genStep keyspace sets st d).ops
        (List.replicate keyspace false, false)
      = some ((genStep keyspace sets st d).rowExists,
              (genStep keyspace sets st d).ops_pending) := by
  unfold genStep
  cases hr : PickOpAtRandom sets d.opDraw <;>
    simp only [IsMutation, Bool.false_eq_true, eq_self_iff_true, if_true, if_false]
  case TEST_INSERT | TEST_INSERT_PK_ONLY =>
    split_ifs with hex <;>
      first
        | simpa using h
        | (dsimp only []
           rw [contractLoop_snoc _ _ _ _ h]
           simp_all [contractStep, List.getD])
  case TEST_UPSERT | TEST_UPSERT_PK_ONLY =>
    split_ifs <;>
      · dsimp only []
        rw [contractLoop_snoc _ _ _ _ h]
        simp [contractStep]
  case TEST_UPDATE =>
    split_ifs with hex hmrs <;>
      first
        | simpa using h
        | (dsimp only []
           rw [contractLoop_snoc _ _ _ _ h]
           simp_all [contractStep, List.getD])
  case TEST_DELETE =>
    split_ifs with hex hmrs <;>
      first
        | simpa using h
        | (dsimp only []
           rw [contractLoop_snoc _ _ _ _ h]
           simp_all [contractStep, List.getD])
  case TEST_FLUSH_OPS =>
    split_ifs with hp
    · dsimp only []
      rw [contractLoop_snoc _ _ _ _ h]
      simp [contractStep, hp]
    · simpa using h
  case TEST_FLUSH_TABLET =>
    split_ifs with hm hp
    · dsimp only []
      have h2 : contractLoop (st.ops ++ [⟨.TEST_FLUSH_OPS, 0⟩])
          (List.replicate keyspace false, false) = some (st.rowExists, false) := by
        rw [contractLoop_snoc _ _ _ _ h]
        simp [contractStep, hp]
      rw [contractLoop_snoc _ _ _ _ h2]
      simp [contractStep]
    · dsimp only []
      rw [contractLoop_snoc _ _ _ _ h]
      simp [contractStep]
    · simpa using h
  case TEST_COMPACT_TABLET =>
    split_ifs with hw hp
    · dsimp only []
      have h2 : contractLoop (st.ops ++ [⟨.TEST_FLUSH_OPS, 0⟩])
          (List.replicate keyspace false, false) = some (st.rowExists, false) := by
        rw [contractLoop_snoc _ _ _ _ h]
        simp [contractStep, hp]
      rw [contractLoop_snoc _ _ _ _ h2]
      simp [contractStep]
    · dsimp only []
      rw [contractLoop_snoc _ _ _ _ h]
      simp [contractStep]
    · simpa using h
  case TEST_FLUSH_DELTAS =>
    split_ifs with hdms hp
    · dsimp only []
      have h2 : contractLoop (st.ops ++ [⟨.TEST_FLUSH_OPS, 0⟩])
          (List.replicate keyspace false, false) = some (st.rowExists, false) := by
        rw [contractLoop_snoc _ _ _ _ h]
        simp [contractStep, hp]
      rw [contractLoop_snoc _ _ _ _ h2]
      simp [contractStep]
    · dsimp only []
      rw [contractLoop_snoc _ _ _ _ h]
      simp [contractStep]
    · simpa using h
  case TEST_MAJOR_COMPACT_DELTAS | TEST_MINOR_COMPACT_DELTAS | TEST_RESTART_TS =>
    rw [contractLoop_snoc _ _ _ _ h]
    simp [contractStep]
  case TEST_SCAN_AT_TIMESTAMP =>
    rw [contractLoop_snoc _ _ _ _ h]
    simp [contractStep]

theorem genLoop_contract (keyspace len : Nat) (sets : TestOpSets) :
    ∀ (draws : List GenDraw) (st : GenState) (ops : List TestOp),
      contractLoop st.ops (List.replicate keyspace false, false)
        = some (st.rowExists, st.ops_pending) →
      genLoop keyspace len sets draws st = some ops →
      ∃ s', contractLoop ops (List.replicate keyspace false, false) = some s' := by
  intro draws
  induction draws with
  | nil =>
    intro st ops hinv hgen
    unfold genLoop at hgen
    by_cases hc : len ≤ st.ops.length
    · rw [if_pos hc] at hgen
      cases hgen
      exact ⟨_, hinv⟩
    · rw [if_neg hc] at hgen
      exact absurd hgen (by simp)
  | cons d rest ih =>
    intro st ops hinv hgen
    unfold genLoop at hgen
    by_cases hc : len ≤ st.ops.length
    · rw [if_pos hc] at hgen
      cases hgen
      exact ⟨_, hinv⟩
    · rw [if_neg hc] at hgen
      exact ih _ ops (genStep_contract keyspace sets st d hinv) hgen

/-- C7: for every requested length, op set, keyspace size, and random-draw
stream, the sequence produced by `GenerateTestCase` obeys the fuzzing
contract — it never inserts a key that is live at that point, never updates
or deletes a key that is not live, and never emits a `TEST_FLUSH_OPS` with
no mutation pending since the previous flush — and consequently passes
`ValidateFuzzCase` with none of its `CHECK` assertions failing. -/
theorem generated_cases_satisfy_contract (opsIn : List TestOp) (keyspace len : Nat)
    (sets : TestOpSets) (draws : List GenDraw) (ops : List TestOp)
    (h : GenerateTestCase opsIn keyspace len sets draws = some ops) :
    FuzzContract keyspace ops = true ∧ ValidateFuzzCase keyspace ops = true := by
  obtain ⟨s', hs⟩ := genLoop_contract keyspace len sets draws (genInit keyspace) ops
    (by simp [genInit, contractLoop]) h
  constructor
  · simp [FuzzContract, hs]
  · simp [ValidateFuzzCase, contract_implies_validate ops _ _ _ hs]

theorem generated_cases_satisfy_contract_witness :
    GenerateTestCase [] 2 3 .ALL [⟨0, 0, 0⟩, ⟨6, 0, 0⟩, ⟨13, 0, 0⟩]
      = some [⟨.TEST_INSERT, 0⟩, ⟨.TEST_FLUSH_OPS, 0⟩, ⟨.TEST_SCAN_AT_TIMESTAMP, 1⟩]
    ∧ (FuzzContract 2 [⟨.TEST_INSERT, 0⟩, ⟨.TEST_FLUSH_OPS, 0⟩,
         ⟨.TEST_SCAN_AT_TIMESTAMP, 1⟩] = true
       ∧ ValidateFuzzCase 2 [⟨.TEST_INSERT, 0⟩, ⟨.TEST_FLUSH_OPS, 0⟩,
           ⟨.TEST_SCAN_AT_TIMESTAMP, 1⟩] = true) :=
  ⟨by decide,
   generated_cases_satisfy_contract [] 2 3 .ALL [⟨0, 0, 0⟩, ⟨6, 0, 0⟩, ⟨13, 0, 0⟩]
     [⟨.TEST_INSERT, 0⟩, ⟨.TEST_FLUSH_OPS, 0⟩, ⟨.TEST_SCAN_AT_TIMESTAMP, 1⟩]
     (by decide)⟩

theorem genStep_ops_length (keyspace : Nat) (sets : TestOpSets) (st : GenState)
    (d : GenDraw) :
    (genStep keyspace sets st d).ops.length ≤ st.ops.length + 2 := by
  unfold genStep
  cases PickOpAtRandom sets d.opDraw <;>
    simp only [IsMutation, Bool.false_eq_true, eq_self_iff_true, if_true, if_false] <;>
    (try split_ifs) <;>
    (try simp only [List.length_append, List.length_cons, List.length_nil]) <;>
    omega

theorem genLoop_length (keyspace len : Nat) (sets : TestOpSets) :
    ∀ (draws : List GenDraw) (st : GenState) (ops : List TestOp),
      st.ops.length ≤ len + 1 →
      genLoop keyspace len sets draws st = some ops →
      len ≤ ops.length ∧ ops.length ≤ len + 1 := by
  intro draws
  induction draws with
  | nil =>
    intro st ops hb hgen
    unfold genLoop at hgen
    by_cases hc : len ≤ st.ops.length
    · rw [if_pos hc] at hgen
      cases hgen
      omega
    · rw [if_neg hc] at hgen
      exact absurd hgen (by simp)
  | cons d rest ih =>
    intro st ops hb hgen
    unfold genLoop at hgen
    by_cases hc : len ≤ st.ops.length
    · rw [if_pos hc] at hgen
      cases hgen
      omega
    · rw [if_neg hc] at hgen
      have hstep := genStep_ops_length keyspace sets st d
      exact ih _ ops (by omega) hgen

/-- C9: every op sequence returned by `GenerateTestCase` has length at least
`len` and at most `len + 1` — the loop runs while fewer than `len` ops exist
and one iteration appends at most two ops (a pending `TEST_FLUSH_OPS`
emitted together with a flush/compaction marker), so the output can exceed
the requested length by exactly one but never more — and the vector passed
in is cleared first, so the result does not depend on it. -/
theorem generated_length_bounds (opsIn : List TestOp) (keyspace len : Nat)
    (sets : TestOpSets) (draws : List GenDraw) (ops : List TestOp)
    (h : GenerateTestCase opsIn keyspace len sets draws = some ops) :
    (len ≤ ops.length ∧ ops.length ≤ len + 1)
    ∧ (∀ opsIn', GenerateTestCase opsIn' keyspace len sets draws
         = GenerateTestCase opsIn keyspace len sets draws)
    ∧ (∀ (st : GenState) (d : GenDraw),
         (genStep keyspace sets st d).ops.length ≤ st.ops.length + 2) :=
  ⟨genLoop_length keyspace len sets draws (genInit keyspace) ops
     (by simp [genInit]) h,
   fun _ => rfl,
   fun st d => genStep_ops_length keyspace sets st d⟩

theorem generated_length_bounds_witness :
    GenerateTestCase [] 2 2 .PK_ONLY [⟨0, 1, 0⟩, ⟨4, 0, 0⟩, ⟨4, 0, 0⟩]
      = some [⟨.TEST_INSERT_PK_ONLY, 1⟩, ⟨.TEST_FLUSH_OPS, 0⟩, ⟨.TEST_FLUSH_TABLET, 0⟩]
    ∧ ((2 ≤ 3 ∧ 3 ≤ 2 + 1)
       ∧ (∀ opsIn', GenerateTestCase opsIn' 2 2 .PK_ONLY [⟨0, 1, 0⟩, ⟨4, 0, 0⟩, ⟨4, 0, 0⟩]
            = GenerateTestCase [] 2 2 .PK_ONLY [⟨0, 1, 0⟩, ⟨4, 0, 0⟩, ⟨4, 0, 0⟩])
       ∧ (∀ (st : GenState) (d : GenDraw),
            (genStep 2 .PK_ONLY st d).ops.length ≤ st.ops.length + 2)) := by
  have h : GenerateTestCase [] 2 2 .PK_ONLY [⟨0, 1, 0⟩, ⟨4, 0, 0⟩, ⟨4, 0, 0⟩]
      = some [⟨.TEST_INSERT_PK_ONLY, 1⟩, ⟨.TEST_FLUSH_OPS, 0⟩, ⟨.TEST_FLUSH_TABLET, 0⟩] := by
    decide
  refine ⟨h, ?_⟩
  have := generated_length_bounds [] 2 2 .PK_ONLY [⟨0, 1, 0⟩, ⟨4, 0, 0⟩, ⟨4, 0, 0⟩]
    [⟨.TEST_INSERT_PK_ONLY, 1⟩, ⟨.TEST_FLUSH_OPS, 0⟩, ⟨.TEST_FLUSH_TABLET, 0⟩] h
  simpa using this

end KuduFuzz

namespace KuduRpc

/-!
## `ConnectionId` (`src/kudu/rpc/connection_id.cc`)

`Sockaddr` and `UserCredentials` live outside `src/`, so they are modelled
minimally: `Sockaddr` as an address value whose `operator==` compares the
address, `UserCredentials` with the credential field its `Equals` compares
and its `HashCode` hashes.  The component `HashCode()` functions themselves
are parameters of the theorems — the hash-consistency property holds for
every choice of them, because `Equals` forces the hashed fields equal.
-/

/-- Modelled from the spec: `Sockaddr` (`kudu/util/net/sockaddr.h`, not
under `src/`) — a remote socket address value; `operator==` compares the
address bytes, modelled as structural equality of host and port. -/
structure Sockaddr where
  host : Nat
  port : Nat
deriving DecidableEq, Repr

/-- Modelled from the spec: `UserCredentials` (`kudu/rpc/user_credentials.h`,
not under `src/`) — the client user name; `Equals` compares it and
`HashCode` hashes the same field. -/
structure UserCredentials where
  real_user : String
deriving DecidableEq, Repr

/-- `UserCredentials::Equals`, comparing the credential fields. -/
def UserCredentials.Equals (a other : UserCredentials) : Bool :=
  a.real_user == other.real_user

/-- `boost::hash_combine` on a 64-bit `size_t`:
`seed ^= h + 0x9e3779b9 + (seed << 6) + (seed >> 2)`. -/
def hashCombine (seed h : Nat) : Nat :=
  (seed ^^^ ((h + 0x9e3779b9 + (seed <<< 6) % 2 ^ 64 + (seed >>> 2)) % 2 ^ 64)) % 2 ^ 64

/-- Translated from `ConnectionId` (`connection_id.h`/`connection_id.cc`):
the remote address plus the user credentials. -/
structure ConnectionId where
  remote_ : Sockaddr
  user_credentials_ : UserCredentials
deriving DecidableEq, Repr

/-- Accessor `ConnectionId::remote()`. -/
def ConnectionId.remote (c : ConnectionId) : Sockaddr := c.remote_

/-- Accessor `ConnectionId::user_credentials()`. -/
def ConnectionId.user_credentials (c : ConnectionId) : UserCredentials :=
  c.user_credentials_

/-- `ConnectionId::DoCopyFrom` (lines 59-62): assigns both fields of
`other` over `c`'s. -/
def ConnectionId.DoCopyFrom (_c other : ConnectionId) : ConnectionId :=
  { remote_ := other.remote_, user_credentials_ := other.user_credentials_ }

/-- `ConnectionId::CopyFrom` (lines 48-50). -/
def ConnectionId.CopyFrom (c other : ConnectionId) : ConnectionId :=
  c.DoCopyFrom other

/-- The copy constructor `ConnectionId(const ConnectionId&)` (lines 31-33):
default-constructs, then `DoCopyFrom(other)`. -/
def ConnectionId.copyConstruct (other : ConnectionId) : ConnectionId :=
  ConnectionId.DoCopyFrom ⟨⟨0, 0⟩, ⟨""⟩⟩ other

/-- `ConnectionId::HashCode` (lines 64-69): seed 0, `boost::hash_combine`
with the remote's hash then the credentials' hash.  The component hash
functions live outside `src/` and are taken as parameters. -/
def ConnectionId.HashCode (sockaddrHash : Sockaddr → Nat)
    (credsHash : UserCredentials → Nat) (c : ConnectionId) : Nat :=
  hashCombine (hashCombine 0 (sockaddrHash c.remote_)) (credsHash c.user_credentials_)

/-- `ConnectionId::Equals` (lines 71-74): remote addresses equal and user
credentials `Equals`. -/
def ConnectionId.Equals (c other : ConnectionId) : Bool :=
  c.remote == other.remote && c.user_credentials.Equals other.user_credentials

/-- `ConnectionIdHash::operator()` (lines 76-78). -/
def ConnectionIdHash (sockaddrHash : Sockaddr → Nat)
    (credsHash : UserCredentials → Nat) (conn_id : ConnectionId) : Nat :=
  conn_id.HashCode sockaddrHash credsHash

/-- `ConnectionIdEqual::operator()` (lines 80-82). -/
def ConnectionIdEqual (cid1 cid2 : ConnectionId) : Bool :=
  cid1.Equals cid2

/-- C10: after `CopyFrom` or copy construction, the copy `Equals` the source
and has the same `HashCode`; `Equals` compares exactly the remote address
and the user credentials; `Equals` implies equal `HashCode` for every choice
of the component hash functions, so `ConnectionIdHash`/`ConnectionIdEqual`
are consistent hash-map functors. -/
theorem connection_id_copy_equals_hash (a b : ConnectionId)
    (sockaddrHash : Sockaddr → Nat) (credsHash : UserCredentials → Nat) :
    ((a.CopyFrom b).Equals b = true
      ∧ (a.CopyFrom b).HashCode sockaddrHash credsHash
          = b.HashCode sockaddrHash credsHash)
    ∧ ((ConnectionId.copyConstruct b).Equals b = true
      ∧ (ConnectionId.copyConstruct b).HashCode sockaddrHash credsHash
          = b.HashCode sockaddrHash credsHash)
    ∧ (a.Equals b = true ↔
        (a.remote = b.remote ∧ a.user_credentials.Equals b.user_credentials = true))
    ∧ (a.Equals b = true →
        a.HashCode sockaddrHash credsHash = b.HashCode sockaddrHash credsHash)
    ∧ (ConnectionIdEqual a b = true →
        ConnectionIdHash sockaddrHash credsHash a
          = ConnectionIdHash sockaddrHash credsHash b) := by
  have hequ : ∀ x y : ConnectionId, x.Equals y = true → x = y := by
    intro x y hxy
    obtain ⟨xr, ⟨xu⟩⟩ := x
    obtain ⟨yr, ⟨yu⟩⟩ := y
    simp only [ConnectionId.Equals, ConnectionId.remote, ConnectionId.user_credentials,
      UserCredentials.Equals, Bool.and_eq_true, beq_iff_eq] at hxy
    simp [hxy.1, hxy.2]
  refine ⟨⟨?_, ?_⟩, ⟨?_, ?_⟩, ?_, ?_, ?_⟩
  · simp [ConnectionId.CopyFrom, ConnectionId.DoCopyFrom, ConnectionId.Equals,
      ConnectionId.remote, ConnectionId.user_credentials, UserCredentials.Equals]
  · rfl
  · simp [ConnectionId.copyConstruct, ConnectionId.DoCopyFrom, ConnectionId.Equals,
      ConnectionId.remote, ConnectionId.user_credentials, UserCredentials.Equals]
  · rfl
  · simp [ConnectionId.Equals, ConnectionId.remote, ConnectionId.user_credentials]
  · intro h
    rw [hequ a b h]
  · intro h
    rw [hequ a b h]

end KuduRpc

namespace KuduFuzz

/-!
## The storage-engine model

The tablet engine itself (`Tablet`, `MemRowSet`, `DiskRowSet`, delta
stores) is not under `src/` — only the fuzz harness that drives it is — so
the engine is modelled from the spec (§2 data flow, §3 data model, §4.3-4.7
components, §8 testable properties), per key:

* a `KeyPhys` is one DiskRowSet generation of a single key: the base image
  (the state at the base timestamp), the undo file reconstructing earlier
  states, and redo delta files plus the DeltaMemStore advancing it;
* a `KeyState` is the list of DRS generations of the key (older first;
  every generation except the newest ends tombstoned) plus its MemRowSet
  mutation chain;
* the engine is one `KeyState` per key of the keyspace, in key order.

A DRS generation is represented by `pre`, the materialized history up to
and including its base image: the base row is `pre`'s last state and the
undo file is the sequence of inverted mutations derived from `pre`
(`KeyPhys.undoFile`, in descending-timestamp order with the before-image of
each mutation, spec §3 "undo_file").  The read path (`readAt`) walks the
undo file backward / the redo entries forward exactly as §4.5 prescribes.
-/

/-- Modelled from the spec: one DiskRowSet generation of a single primary
key (§3 "DiskRowSet", §4.5): `pre` carries base image and undo history
(see `KeyPhys.undoFile`), `redoFiles` the flushed redo delta files (each
sorted ascending, appended by DMS flushes), `dms` the in-memory
DeltaMemStore entries not yet flushed. -/
structure KeyPhys where
  pre : Chain
  redoFiles : List Chain
  dms : Chain
deriving DecidableEq, Repr

/-- The generation's base timestamp: the commit timestamp of its base
image, i.e. of the newest pre-base mutation. -/
def KeyPhys.baseTs (p : KeyPhys) : Nat :=
  match p.pre.getLast? with
  | some e => e.1
  | none => 0

/-- The generation's base image: the key's state at `baseTs`. -/
def KeyPhys.base (p : KeyPhys) : RowState := lastState p.pre none

/-- All redo entries of the generation, flushed files first then the DMS,
in ascending timestamp order. -/
def KeyPhys.redoAll (p : KeyPhys) : Chain := p.redoFiles.flatten ++ p.dms

/-- The undo entries derived from a pre-base history whose state before the
first mutation was `prev`: one entry `(t, before-image)` per mutation, in
descending timestamp order (spec §3: undo files are sorted by descending
timestamp and reconstruct any earlier state). -/
def buildUndos (prev : RowState) : Chain → List (Nat × RowState)
  | [] => []
  | (t, s) :: rest => buildUndos s rest ++ [(t, prev)]

/-- The generation's undo file: inverted mutations back to the insert
(before which the key was absent). -/
def KeyPhys.undoFile (p : KeyPhys) : List (Nat × RowState) := buildUndos none p.pre

/-- Modelled from the spec: the DRS point-read algorithm of §4.5 — load the
base row; if `T ≥ base_ts` apply the redo entries with `ts ≤ T` in
ascending order, else apply the undo entries with `ts > T` in descending
order; each applied entry overwrites the row state, so the result is the
last applied entry's state (its before-image for undo entries). -/
def readAt (p : KeyPhys) (T : Nat) : RowState :=
  if p.baseTs ≤ T then
    lastState (p.redoAll.filter (fun e => decide (e.1 ≤ T))) p.base
  else
    match ((p.undoFile).filter (fun e => decide (T < e.1))).getLast? with
    | some e => e.2
    | none => p.base

/-- The full logical history one DRS generation carries. -/
def genChain (p : KeyPhys) : Chain := p.pre ++ p.redoAll

/-- Well-formedness of one generation: a non-empty pre-base history and a
strictly ascending full history (which makes the undo file strictly
descending and every redo timestamp greater than the base timestamp). -/
def GenWF (p : KeyPhys) : Prop := p.pre ≠ [] ∧ ChainAsc (genChain p)

theorem buildUndos_fst (b : RowState) (c : Chain) :
    (buildUndos b c).map Prod.fst = (c.map Prod.fst).reverse := by
  induction c generalizing b with
  | nil => rfl
  | cons e rest ih =>
    obtain ⟨t, s⟩ := e
    simp [buildUndos, ih s]

theorem chainAsc_tail {x : Nat × RowState} {c : Chain} (h : ChainAsc (x :: c)) :
    ChainAsc c := (List.pairwise_cons.mp h).2

theorem chainAsc_head_lt {x : Nat × RowState} {c : Chain} (h : ChainAsc (x :: c)) :
    ∀ e ∈ c, x.1 < e.1 := (List.pairwise_cons.mp h).1

/-- Membership of the last element. -/
theorem getLast?_mem_self {α : Type} {l : List α} {a : α} (h : l.getLast? = some a) :
    a ∈ l := by
  obtain ⟨hne, rfl⟩ := List.mem_getLast?_eq_getLast (Option.mem_def.mpr h)
  exact List.getLast_mem hne

/-- `getLast?` ignores a cons onto a non-empty list. -/
theorem getLast?_cons_of_ne_nil {α : Type} (a : α) {l : List α} (h : l ≠ []) :
    (a :: l).getLast? = l.getLast? := by
  cases l with
  | nil => exact absurd rfl h
  | cons b t => exact List.getLast?_cons_cons

/-- The spec's undo mechanics are correct: walking the undo file of a
history `c` (with pre-history state `b`) for the entries newer than `T`
yields exactly the history's state at `T`. -/
theorem undo_read (c : Chain) : ∀ (b : RowState) (T : Nat), ChainAsc c →
    (match ((buildUndos b c).filter (fun e => decide (T < e.1))).getLast? with
     | some e => e.2
     | none => lastState c b)
    = lastState (c.filter (fun e => decide (e.1 ≤ T))) b := by
  induction c with
  | nil => intro b T _; rfl
  | cons x rest ih =>
    obtain ⟨t, s⟩ := x
    intro b T hasc
    simp only [buildUndos, List.filter_append, List.filter_cons, List.filter_nil]
    by_cases ht : T < t
    · have h1 : decide (T < (t, b).1) = true := by simpa using ht
      have h2 : decide ((t, s).1 ≤ T) = false := by simp; omega
      rw [h1, h2]
      simp only [eq_self_iff_true, if_true, Bool.false_eq_true, if_false]
      have hall : ∀ e ∈ buildUndos s rest, decide (T < e.1) = true := by
        intro e he
        have hmem : e.1 ∈ (buildUndos s rest).map Prod.fst := List.mem_map_of_mem _ he
        rw [buildUndos_fst] at hmem
        simp only [List.mem_reverse, List.mem_map] at hmem
        obtain ⟨y, hy, hye⟩ := hmem
        have := chainAsc_head_lt hasc y hy
        simp only [decide_eq_true_eq]
        omega
      have hrest_none : rest.filter (fun e => decide (e.1 ≤ T)) = [] := by
        rw [List.filter_eq_nil]
        intro e he
        have := chainAsc_head_lt hasc e he
        simp only [decide_eq_true_eq]
        omega
      rw [List.filter_eq_self.mpr hall, List.getLast?_concat, hrest_none]
      rfl
    · have h1 : decide (T < (t, b).1) = false := by simp; omega
      have h2 : decide ((t, s).1 ≤ T) = true := by simp; omega
      rw [h1, h2]
      simp only [eq_self_iff_true, if_true, Bool.false_eq_true, if_false]
      rw [List.append_nil]
      simp only [lastState_cons]
      exact ih s T (chainAsc_tail hasc)

theorem chainAsc_mem_le_getLast (c : Chain) (hc : ChainAsc c) :
    ∀ e ∈ c, ∀ x, c.getLast? = some x → e.1 ≤ x.1 := by
  induction c with
  | nil => intro e he; exact absurd he (by simp)
  | cons a rest ih =>
    intro e he x hx
    cases hr : rest with
    | nil =>
      subst hr
      simp only [List.getLast?_singleton, Option.some.injEq] at hx
      subst hx
      simp only [List.mem_singleton] at he
      subst he
      exact le_refl _
    | cons b rest' =>
      subst hr
      rw [getLast?_cons_of_ne_nil a (by simp)] at hx
      have hxmem : x ∈ b :: rest' := getLast?_mem_self hx
      rcases List.mem_cons.mp he with rfl | he'
      · exact le_of_lt (chainAsc_head_lt hc x hxmem)
      · exact ih (chainAsc_tail hc) e he' x hx

/-- The §4.5 read path reconstructs exactly the history the generation
carries: at every snapshot timestamp the base/undo/redo walk agrees with
the MVCC reading of the generation's chain. -/
theorem readAt_eq (p : KeyPhys) (hwf : GenWF p) (T : Nat) :
    readAt p T = histAt (genChain p) T := by
  obtain ⟨hne, hasc⟩ := hwf
  unfold readAt histAt genChain
  rw [List.filter_append, lastState_append]
  by_cases hb : p.baseTs ≤ T
  · rw [if_pos hb]
    have hpre : p.pre.filter (fun e => decide (e.1 ≤ T)) = p.pre := by
      rw [List.filter_eq_self]
      intro e he
      cases hx : p.pre.getLast? with
      | none => exact absurd (List.getLast?_eq_none_iff.mp hx) hne
      | some x =>
        have hle := chainAsc_mem_le_getLast p.pre
          (List.pairwise_append.mp hasc).1 e he x hx
        have hxts : x.1 = p.baseTs := by simp [KeyPhys.baseTs, hx]
        simp only [decide_eq_true_eq]
        omega
    rw [hpre]
    rfl
  · rw [if_neg hb]
    have hredo : p.redoAll.filter (fun e => decide (e.1 ≤ T)) = [] := by
      rw [List.filter_eq_nil]
      intro e he
      have hlt : p.baseTs < e.1 := by
        cases hx : p.pre.getLast? with
        | none => exact absurd (List.getLast?_eq_none_iff.mp hx) hne
        | some x =>
          have hxmem : x ∈ p.pre := getLast?_mem_self hx
          have := (List.pairwise_append.mp hasc).2.2 x hxmem e he
          have hxts : x.1 = p.baseTs := by simp [KeyPhys.baseTs, hx]
          omega
      simp only [decide_eq_true_eq]
      omega
    rw [hredo]
    have hu := undo_read p.pre none T (List.pairwise_append.mp hasc).1
    unfold KeyPhys.undoFile KeyPhys.base
    rw [hu]
    rfl

/-- Modelled from the spec: the layered state of one primary key — its DRS
generations, older first (per §4.7 two generations of one key coexist only
as a tombstoned older generation plus a later reinsert), plus the key's
MemRowSet mutation chain (newest layer). -/
structure KeyState where
  gens : List KeyPhys
  mrs : Chain
deriving DecidableEq, Repr

/-- The key's full committed history: generation histories in age order,
then the MemRowSet chain. -/
def keyHist (ks : KeyState) : Chain := (ks.gens.map genChain).flatten ++ ks.mrs

/-- Modelled from the spec: reading one key at snapshot `T` (§2 read data
flow) — reconstruct the row from every DRS generation (`readAt`) and from
the MemRowSet, and take the union; by the unique-live-key invariant at most
one layer yields a live row, which is the scan's row for this key. -/
def keyRead (ks : KeyState) (T : Nat) : RowState :=
  ((ks.gens.map (fun p => readAt p T)) ++ [histAt ks.mrs T]).findSome? id

/-- Layer discipline for a list of per-layer histories: every layer
followed by a non-empty layer ends tombstoned — the unique-live-key
invariant across generations. -/
def ChainsOK : List Chain → Prop
  | [] => True
  | c :: rest => (rest.flatten ≠ [] → lastState c none = none) ∧ ChainsOK rest

def chainsOKDec : (l : List Chain) → Decidable (ChainsOK l)
  | [] => isTrue trivial
  | c :: rest =>
    have : Decidable (ChainsOK rest) := chainsOKDec rest
    by unfold ChainsOK; infer_instance

attribute [instance] chainsOKDec

theorem histAt_append (c1 c2 : Chain) (T : Nat) :
    histAt (c1 ++ c2) T
      = lastState (c2.filter (fun e => decide (e.1 ≤ T))) (histAt c1 T) := by
  unfold histAt
  rw [List.filter_append, lastState_append]

/-- Union-read correctness: under the layer discipline, taking the first
live reconstruction among ordered layers gives exactly the MVCC reading of
the concatenated history. -/
theorem hist_union (segs : List Chain) (T : Nat) :
    ChainsOK segs → ChainAsc segs.flatten →
    (segs.map (fun c => histAt c T)).findSome? id = histAt segs.flatten T := by
  induction segs with
  | nil => intro _ _; rfl
  | cons c rest ih =>
    intro hok hasc
    obtain ⟨hend, hok'⟩ := hok
    rw [List.flatten_cons] at hasc
    have hasc' : ChainAsc rest.flatten := (List.pairwise_append.mp hasc).2.1
    simp only [List.map_cons, List.findSome?_cons]
    cases hc : histAt c T with
    | none =>
      simp only [id]
      rw [List.flatten_cons, histAt_append, hc]
      exact ih hok' hasc'
    | some v =>
      simp only [id]
      rw [List.flatten_cons, histAt_append, hc]
      have hnil : rest.flatten.filter (fun e => decide (e.1 ≤ T)) = [] := by
        by_cases hrj : rest.flatten = []
        · rw [hrj]; rfl
        · have hendc := hend hrj
          have hex : ∃ x ∈ c, T < x.1 := by
            by_contra hno
            push_neg at hno
            have hfc : c.filter (fun e => decide (e.1 ≤ T)) = c :=
              List.filter_eq_self.mpr (by
                intro e he
                simpa using hno e he)
            rw [histAt, hfc, hendc] at hc
            exact absurd hc (by simp)
          obtain ⟨x, hx, hxt⟩ := hex
          rw [List.filter_eq_nil_iff]
          intro e he
          have := (List.pairwise_append.mp hasc).2.2 x hx e he
          simp only [decide_eq_true_eq]
          omega
      rw [hnil]
      rfl

/-- Well-formedness of a key's layered state: non-empty generation
histories, the layer discipline, and a strictly ascending full history. -/
def KeyWF (ks : KeyState) : Prop :=
  (∀ g ∈ ks.gens, g.pre ≠ [])
    ∧ ChainsOK (ks.gens.map genChain ++ [ks.mrs])
    ∧ ChainAsc (keyHist ks)

instance (ks : KeyState) : Decidable (KeyWF ks) := by
  unfold KeyWF; infer_instance

theorem keyHist_eq_segs (ks : KeyState) :
    (ks.gens.map genChain ++ [ks.mrs]).flatten = keyHist ks := by
  rw [List.flatten_append, keyHist]
  simp

/-- The layered union read agrees with the MVCC reading of the key's full
history at every snapshot timestamp. -/
theorem keyRead_eq (ks : KeyState) (hwf : KeyWF ks) (T : Nat) :
    keyRead ks T = histAt (keyHist ks) T := by
  obtain ⟨hne, hok, hasc⟩ := hwf
  unfold keyRead
  have hmapeq : ks.gens.map (fun p => readAt p T)
      = ks.gens.map (fun p => histAt (genChain p) T) := by
    apply List.map_congr_left
    intro g hg
    refine readAt_eq g ⟨hne g hg, ?_⟩ T
    have hsub : List.Sublist (genChain g) (keyHist ks) := by
      rw [← keyHist_eq_segs]
      exact List.sublist_flatten_of_mem
        (by
          apply List.mem_append_left
          exact List.mem_map_of_mem genChain hg)
    exact List.Pairwise.sublist hsub hasc
  rw [hmapeq]
  have hsegs : (ks.gens.map (fun p => histAt (genChain p) T)) ++ [histAt ks.mrs T]
      = (ks.gens.map genChain ++ [ks.mrs]).map (fun c => histAt c T) := by
    rw [List.map_append, List.map_map]
    rfl
  rw [hsegs]
  rw [hist_union _ T hok (by rw [keyHist_eq_segs]; exact hasc)]
  rw [keyHist_eq_segs]

/-- Modelled from the spec: the tablet — one `KeyState` per key of the
keyspace, in ascending key order (key `k` at index `k`). -/
abbrev Engine := List KeyState

/-- Walk the keys from `k` upward and collect the live rows at snapshot
`T`: the ordered scan's merge across row sets, which returns rows in
primary-key order. -/
def scanFrom (k : Nat) : Engine → Nat → List ExpectedKeyValueRow
  | [], _ => []
  | ks :: rest, T =>
    match keyRead ks T with
    | some v => ⟨(k : Int), v⟩ :: scanFrom (k + 1) rest T
    | none => scanFrom (k + 1) rest T

/-- An ordered snapshot scan of the tablet at timestamp `T` (inclusive of
mutations committed at `T`). -/
def scanAt (e : Engine) (T : Nat) : List ExpectedKeyValueRow := scanFrom 0 e T

/-- Tablet well-formedness: every key's layered state is well formed. -/
def EngineWF (e : Engine) : Prop := ∀ ks ∈ e, KeyWF ks

instance (e : Engine) : Decidable (EngineWF e) := by
  unfold EngineWF; infer_instance

/-!
### Maintenance operations

Modelled from the spec §4.7, per key.  `FlushBiggestDMS` and
`CompactWorstDeltas` pick one DMS/DRS by size; the model abstracts that
policy as an arbitrary selection predicate over keys, so the theorems hold
for every choice the engine could make.
-/

/-- Modelled from the spec (§4.7.1): flush the MemRowSet — the key's chain
becomes a new DiskRowSet generation whose base is the newest state and
whose undo file covers the chain back to the insert (`KeyPhys.undoFile`),
with no redo deltas yet. -/
def flushMRSKey (ks : KeyState) : KeyState :=
  if ks.mrs = [] then ks
  else ⟨ks.gens ++ [⟨ks.mrs, [], []⟩], []⟩

/-- Modelled from the spec (§4.7.2): flush a generation's DMS, appending it
as a new redo delta file; the DMS becomes empty. -/
def flushDMSGen (p : KeyPhys) : KeyPhys :=
  if p.dms = [] then p else ⟨p.pre, p.redoFiles ++ [p.dms], []⟩

def flushDMSKey (ks : KeyState) : KeyState := ⟨ks.gens.map flushDMSGen, ks.mrs⟩

/-- Modelled from the spec (§4.7.3): minor delta compaction — merge the
redo delta files of a DRS into a single redo file; base and undo are not
touched. -/
def minorCompactGen (p : KeyPhys) : KeyPhys := ⟨p.pre, [p.redoFiles.flatten], p.dms⟩

def minorCompactKey (ks : KeyState) : KeyState := ⟨ks.gens.map minorCompactGen, ks.mrs⟩

/-- Modelled from the spec (§4.7.4): major delta compaction — apply the
flushed redo deltas into the base image (advancing the base timestamp to
the newest applied delta) and move them, inverted, into the undo file; the
DMS is untouched. -/
def majorCompactGen (p : KeyPhys) : KeyPhys := ⟨p.pre ++ p.redoFiles.flatten, [], p.dms⟩

def majorCompactKey (ks : KeyState) : KeyState := ⟨ks.gens.map majorCompactGen, ks.mrs⟩

/-- Modelled from the spec (§4.7.5): merging row-set compaction — merge all
DRS generations of a key into one output whose undo stream carries the full
history.  Nothing is elided: the harness scans at arbitrarily old
timestamps, so clean time is zero and every tombstoned generation must
remain reconstructible. -/
def compactAllKey (ks : KeyState) : KeyState :=
  if (ks.gens.map genChain).flatten = [] then ⟨[], ks.mrs⟩
  else ⟨[⟨(ks.gens.map genChain).flatten, [], []⟩], ks.mrs⟩

theorem genChain_mk_plain (c : Chain) : genChain ⟨c, [], []⟩ = c := by
  simp [genChain, KeyPhys.redoAll]

theorem flushMRSKey_hist (ks : KeyState) : keyHist (flushMRSKey ks) = keyHist ks := by
  unfold flushMRSKey
  split_ifs with h
  · rfl
  · simp [keyHist, genChain_mk_plain]

theorem flushDMSGen_chain (p : KeyPhys) : genChain (flushDMSGen p) = genChain p := by
  unfold flushDMSGen
  split_ifs with h
  · rfl
  · simp [genChain, KeyPhys.redoAll, List.flatten_append, List.append_assoc]

theorem minorCompactGen_chain (p : KeyPhys) :
    genChain (minorCompactGen p) = genChain p := by
  simp [minorCompactGen, genChain, KeyPhys.redoAll]

theorem majorCompactGen_chain (p : KeyPhys) :
    genChain (majorCompactGen p) = genChain p := by
  simp [majorCompactGen, genChain, KeyPhys.redoAll, List.append_assoc]

theorem mapGen_hist (f : KeyPhys → KeyPhys)
    (hf : ∀ p, genChain (f p) = genChain p) (ks : KeyState) :
    keyHist ⟨ks.gens.map f, ks.mrs⟩ = keyHist ks := by
  unfold keyHist
  simp only [List.map_map]
  have : ks.gens.map (genChain ∘ f) = ks.gens.map genChain :=
    List.map_congr_left (fun g _ => hf g)
  rw [this]

theorem mapGen_segs (f : KeyPhys → KeyPhys)
    (hf : ∀ p, genChain (f p) = genChain p) (ks : KeyState) :
    (ks.gens.map f).map genChain = ks.gens.map genChain := by
  simp only [List.map_map]
  exact List.map_congr_left (fun g _ => hf g)

theorem compactAllKey_hist (ks : KeyState) :
    keyHist (compactAllKey ks) = keyHist ks := by
  unfold compactAllKey
  split_ifs with h
  · simp [keyHist, h]
  · simp [keyHist, genChain_mk_plain]

theorem ChainsOK_append_nil (l : List Chain) (h : ChainsOK l) :
    ChainsOK (l ++ [[]]) := by
  induction l with
  | nil => exact ⟨by simp, trivial⟩
  | cons c rest ih =>
    obtain ⟨h1, h2⟩ := h
    refine ⟨?_, ih h2⟩
    intro hne
    refine h1 ?_
    simpa using hne

theorem ChainsOK_flatten_ends (G : List Chain) (mrs : Chain)
    (h : ChainsOK (G ++ [mrs])) (hm : mrs ≠ []) :
    lastState G.flatten none = none := by
  induction G with
  | nil => rfl
  | cons c G2 ih =>
    obtain ⟨h1, h2⟩ := h
    have hfl : (G2 ++ [mrs]).flatten ≠ [] := by
      rw [List.flatten_append]
      intro hnil
      rcases List.append_eq_nil.mp hnil with ⟨-, h3⟩
      simp only [List.flatten_cons, List.flatten_nil, List.append_nil] at h3
      exact hm h3
    rw [List.flatten_cons, lastState_append, h1 hfl]
    exact ih h2

theorem flushMRSKey_wf (ks : KeyState) (hwf : KeyWF ks) : KeyWF (flushMRSKey ks) := by
  obtain ⟨hne, hok, hasc⟩ := hwf
  unfold flushMRSKey
  split_ifs with h
  · exact ⟨hne, hok, hasc⟩
  · refine ⟨?_, ?_, ?_⟩
    · intro g hg
      rcases List.mem_append.mp hg with hg' | hg'
      · exact hne g hg'
      · simp only [List.mem_singleton] at hg'
        subst hg'
        exact h
    · show ChainsOK ((ks.gens ++ [(⟨ks.mrs, [], []⟩ : KeyPhys)]).map genChain ++ [[]])
      rw [List.map_append]
      simp only [List.map_cons, List.map_nil, genChain_mk_plain]
      exact ChainsOK_append_nil _ hok
    · have := flushMRSKey_hist ks
      unfold flushMRSKey at this
      rw [if_neg h] at this
      rw [show keyHist ⟨ks.gens ++ [(⟨ks.mrs, [], []⟩ : KeyPhys)], []⟩ = keyHist ks from this]
      exact hasc

theorem mapGen_wf (f : KeyPhys → KeyPhys)
    (hf : ∀ p, genChain (f p) = genChain p)
    (hp : ∀ p, p.pre ≠ [] → (f p).pre ≠ []) (ks : KeyState) (hwf : KeyWF ks) :
    KeyWF ⟨ks.gens.map f, ks.mrs⟩ := by
  obtain ⟨hne, hok, hasc⟩ := hwf
  refine ⟨?_, ?_, ?_⟩
  · intro g hg
    obtain ⟨x, hx, rfl⟩ := List.mem_map.mp hg
    exact hp x (hne x hx)
  · show ChainsOK ((ks.gens.map f).map genChain ++ [ks.mrs])
    rw [mapGen_segs f hf]
    exact hok
  · rw [show keyHist ⟨ks.gens.map f, ks.mrs⟩ = keyHist ks from mapGen_hist f hf ks]
    exact hasc

theorem compactAllKey_wf (ks : KeyState) (hwf : KeyWF ks) :
    KeyWF (compactAllKey ks) := by
  obtain ⟨hne, hok, hasc⟩ := hwf
  unfold compactAllKey
  split_ifs with h
  · refine ⟨by simp, ?_, ?_⟩
    · exact ⟨by simp, trivial⟩
    · rw [show keyHist ⟨[], ks.mrs⟩ = keyHist ks by simp [keyHist, h]]
      exact hasc
  · refine ⟨?_, ?_, ?_⟩
    · intro g hg
      simp only [List.mem_singleton] at hg
      subst hg
      exact h
    · refine ⟨?_, by simp, trivial⟩
      intro hm
      simp only [List.map_cons, List.map_nil, genChain_mk_plain] at *
      refine ChainsOK_flatten_ends (ks.gens.map genChain) ks.mrs hok ?_
      simpa using hm
    · rw [show keyHist ⟨[(⟨(ks.gens.map genChain).flatten, [], []⟩ : KeyPhys)], ks.mrs⟩
          = keyHist ks by simp [keyHist, genChain_mk_plain]]
      exact hasc

/-- The maintenance operations the harness triggers (`Tablet::Flush`,
`Tablet::FlushBiggestDMS`, `Tablet::CompactWorstDeltas(MINOR/MAJOR)`,
`Tablet::Compact(FORCE_COMPACT_ALL)`); the biggest/worst pick is abstracted
as a selection predicate over keys. -/
inductive MaintOp where
  | flushTablet
  | flushDeltas (sel : Nat → Bool)
  | minorCompactDeltas (sel : Nat → Bool)
  | majorCompactDeltas (sel : Nat → Bool)
  | compactTablet

/-- Apply `f` to the selected keys (indexing from `k`). -/
def mapSel (f : KeyState → KeyState) (sel : Nat → Bool) :
    Nat → Engine → Engine
  | _, [] => []
  | k, ks :: rest => (if sel k then f ks else ks) :: mapSel f sel (k + 1) rest

/-- One maintenance operation on the tablet. -/
def applyMaint : MaintOp → Engine → Engine
  | .flushTablet, e => e.map flushMRSKey
  | .flushDeltas sel, e => mapSel flushDMSKey sel 0 e
  | .minorCompactDeltas sel, e => mapSel minorCompactKey sel 0 e
  | .majorCompactDeltas sel, e => mapSel majorCompactKey sel 0 e
  | .compactTablet, e => e.map compactAllKey

/-- A sequence of maintenance operations, applied left to right. -/
def applyMaints (ms : List MaintOp) (e : Engine) : Engine :=
  ms.foldl (fun acc m => applyMaint m acc) e

theorem keyRead_congr (ks ks2 : KeyState) (hw : KeyWF ks) (hw2 : KeyWF ks2)
    (hh : keyHist ks2 = keyHist ks) (T : Nat) : keyRead ks2 T = keyRead ks T := by
  rw [keyRead_eq ks2 hw2 T, keyRead_eq ks hw T, hh]

theorem scanFrom_map (f : KeyState → KeyState) (T : Nat)
    (hf : ∀ ks, KeyWF ks → keyRead (f ks) T = keyRead ks T) :
    ∀ (k : Nat) (e : Engine), (∀ ks ∈ e, KeyWF ks) →
      scanFrom k (e.map f) T = scanFrom k e T := by
  intro k e
  induction e generalizing k with
  | nil => intro _; rfl
  | cons ks rest ih =>
    intro hwf
    simp only [List.map_cons, scanFrom]
    rw [hf ks (hwf ks (by simp))]
    have hr := ih (k + 1) (fun x hx => hwf x (by simp [hx]))
    cases keyRead ks T <;> simp [hr]

theorem scanFrom_mapSel (f : KeyState → KeyState) (sel : Nat → Bool) (T : Nat)
    (hf : ∀ ks, KeyWF ks → keyRead (f ks) T = keyRead ks T) :
    ∀ (k : Nat) (e : Engine), (∀ ks ∈ e, KeyWF ks) →
      scanFrom k (mapSel f sel k e) T = scanFrom k e T := by
  intro k e
  induction e generalizing k with
  | nil => intro _; rfl
  | cons ks rest ih =>
    intro hwf
    simp only [mapSel, scanFrom]
    have hread : keyRead (if sel k then f ks else ks) T = keyRead ks T := by
      split_ifs with hs
      · exact hf ks (hwf ks (by simp))
      · rfl
    rw [hread]
    have hr := ih (k + 1) (fun x hx => hwf x (by simp [hx]))
    cases keyRead ks T <;> simp [hr]

theorem engineWF_map (f : KeyState → KeyState)
    (hw : ∀ ks, KeyWF ks → KeyWF (f ks)) (e : Engine) (hwf : EngineWF e) :
    EngineWF (e.map f) := by
  intro ks hks
  obtain ⟨x, hx, rfl⟩ := List.mem_map.mp hks
  exact hw x (hwf x hx)

theorem engineWF_mapSel (f : KeyState → KeyState) (sel : Nat → Bool)
    (hw : ∀ ks, KeyWF ks → KeyWF (f ks)) :
    ∀ (k : Nat) (e : Engine), EngineWF e → EngineWF (mapSel f sel k e) := by
  intro k e
  induction e generalizing k with
  | nil => intro _; exact fun ks hks => absurd hks (by simp [mapSel])
  | cons ks rest ih =>
    intro hwf x hx
    simp only [mapSel, List.mem_cons] at hx
    rcases hx with rfl | hx
    · split_ifs with hs
      · exact hw ks (hwf ks (by simp))
      · exact hwf ks (by simp)
    · exact ih (k + 1) (fun y hy => hwf y (by simp [hy])) x hx

theorem flushDMSKey_read (T : Nat) (ks : KeyState) (h : KeyWF ks) :
    keyRead (flushDMSKey ks) T = keyRead ks T :=
  keyRead_congr ks (flushDMSKey ks) h
    (mapGen_wf flushDMSGen flushDMSGen_chain
      (fun p hp => by unfold flushDMSGen; split_ifs <;> simpa) ks h)
    (mapGen_hist flushDMSGen flushDMSGen_chain ks) T

theorem minorCompactKey_read (T : Nat) (ks : KeyState) (h : KeyWF ks) :
    keyRead (minorCompactKey ks) T = keyRead ks T :=
  keyRead_congr ks (minorCompactKey ks) h
    (mapGen_wf minorCompactGen minorCompactGen_chain (fun p hp => hp) ks h)
    (mapGen_hist minorCompactGen minorCompactGen_chain ks) T

theorem majorCompactKey_read (T : Nat) (ks : KeyState) (h : KeyWF ks) :
    keyRead (majorCompactKey ks) T = keyRead ks T :=
  keyRead_congr ks (majorCompactKey ks) h
    (mapGen_wf majorCompactGen majorCompactGen_chain
      (fun p hp => by
        intro hc
        exact hp (List.append_eq_nil.mp hc).1) ks h)
    (mapGen_hist majorCompactGen majorCompactGen_chain ks) T

theorem flushMRSKey_read (T : Nat) (ks : KeyState) (h : KeyWF ks) :
    keyRead (flushMRSKey ks) T = keyRead ks T :=
  keyRead_congr ks (flushMRSKey ks) h (flushMRSKey_wf ks h) (flushMRSKey_hist ks) T

theorem compactAllKey_read (T : Nat) (ks : KeyState) (h : KeyWF ks) :
    keyRead (compactAllKey ks) T = keyRead ks T :=
  keyRead_congr ks (compactAllKey ks) h (compactAllKey_wf ks h) (compactAllKey_hist ks) T

/-- Every single maintenance operation leaves every snapshot scan
unchanged. -/
theorem applyMaint_scan (m : MaintOp) (e : Engine) (hwf : EngineWF e) (T : Nat) :
    scanAt (applyMaint m e) T = scanAt e T := by
  cases m with
  | flushTablet => exact scanFrom_map flushMRSKey T (fun ks h => flushMRSKey_read T ks h) 0 e hwf
  | flushDeltas sel =>
    exact scanFrom_mapSel flushDMSKey sel T (fun ks h => flushDMSKey_read T ks h) 0 e hwf
  | minorCompactDeltas sel =>
    exact scanFrom_mapSel minorCompactKey sel T (fun ks h => minorCompactKey_read T ks h) 0 e hwf
  | majorCompactDeltas sel =>
    exact scanFrom_mapSel majorCompactKey sel T (fun ks h => majorCompactKey_read T ks h) 0 e hwf
  | compactTablet => exact scanFrom_map compactAllKey T (fun ks h => compactAllKey_read T ks h) 0 e hwf

/-- Every single maintenance operation preserves tablet well-formedness. -/
theorem applyMaint_wf (m : MaintOp) (e : Engine) (hwf : EngineWF e) :
    EngineWF (applyMaint m e) := by
  cases m with
  | flushTablet => exact engineWF_map flushMRSKey flushMRSKey_wf e hwf
  | flushDeltas sel =>
    exact engineWF_mapSel flushDMSKey sel
      (fun ks h => mapGen_wf flushDMSGen flushDMSGen_chain
        (fun p hp => by unfold flushDMSGen; split_ifs <;> simpa) ks h) 0 e hwf
  | minorCompactDeltas sel =>
    exact engineWF_mapSel minorCompactKey sel
      (fun ks h => mapGen_wf minorCompactGen minorCompactGen_chain (fun p hp => hp) ks h) 0 e hwf
  | majorCompactDeltas sel =>
    exact engineWF_mapSel majorCompactKey sel
      (fun ks h => mapGen_wf majorCompactGen majorCompactGen_chain
        (fun p hp => by
          intro hc
          exact hp (List.append_eq_nil.mp hc).1) ks h) 0 e hwf
  | compactTablet => exact engineWF_map compactAllKey compactAllKey_wf e hwf

/-- C2: compaction neutrality — for every snapshot timestamp, the rows a
scan returns are identical before and after any combination of MRS flush
(`Tablet::Flush`), DMS flush (`FlushBiggestDMS`), minor or major delta
compaction (`CompactWorstDeltas`), and full row-set compaction
(`Compact(FORCE_COMPACT_ALL)`): flush and compaction never change any
logically visible state at any snapshot. -/
theorem compaction_neutrality (e : Engine) (hwf : EngineWF e)
    (ms : List MaintOp) (T : Nat) :
    scanAt (applyMaints ms e) T = scanAt e T := by
  induction ms generalizing e with
  | nil => rfl
  | cons m rest ih =>
    unfold applyMaints
    simp only [List.foldl_cons]
    have h1 := ih (applyMaint m e) (applyMaint_wf m e hwf)
    unfold applyMaints at h1
    rw [h1, applyMaint_scan m e hwf T]

/-- A concrete well-formed tablet used by the C2 witness: key 0 has one DRS
generation (with a redo file and a DMS) ending tombstoned plus a reinsert
in the MRS; key 1 lives only in the MRS. -/
def c2EngineExample : Engine :=
  [⟨[⟨[(1, some (some 0)), (3, none)], [[(4, some (some 2))]], [(5, none)]⟩],
    [(7, some (some 4))]⟩,
   ⟨[], [(2, some none)]⟩]

/-- The maintenance sequence used by the C2 witness: MRS flush, DMS flush,
minor then major delta compaction, then a full compaction. -/
def c2MaintExample : List MaintOp :=
  [.flushTablet, .flushDeltas (fun _ => true), .minorCompactDeltas (fun _ => true),
   .majorCompactDeltas (fun _ => true), .compactTablet]

theorem compaction_neutrality_witness :
    EngineWF c2EngineExample
    ∧ scanAt (applyMaints c2MaintExample c2EngineExample) 4
        = scanAt c2EngineExample 4 :=
  ⟨by decide, compaction_neutrality c2EngineExample (by decide) c2MaintExample 4⟩

theorem scanFrom_key_ge (T : Nat) :
    ∀ (k : Nat) (e : Engine) (r : ExpectedKeyValueRow),
      r ∈ scanFrom k e T → (k : Int) ≤ r.key := by
  intro k e
  induction e generalizing k with
  | nil => intro r hr; exact absurd hr (by simp [scanFrom])
  | cons ks rest ih =>
    intro r hr
    simp only [scanFrom] at hr
    cases hread : keyRead ks T with
    | some v =>
      rw [hread] at hr
      rcases List.mem_cons.mp hr with rfl | hr2
      · simp
      · have := ih (k + 1) r hr2
        omega
    | none =>
      rw [hread] at hr
      have := ih (k + 1) r hr
      omega

theorem scanFrom_sorted (T : Nat) :
    ∀ (k : Nat) (e : Engine),
      (scanFrom k e T).Pairwise (fun a b => a.key < b.key) := by
  intro k e
  induction e generalizing k with
  | nil => exact List.Pairwise.nil
  | cons ks rest ih =>
    simp only [scanFrom]
    cases hread : keyRead ks T with
    | some v =>
      refine List.pairwise_cons.mpr ⟨?_, ih (k + 1)⟩
      intro b hb
      have := scanFrom_key_ge T (k + 1) rest b hb
      simp only []
      omega
    | none => exact ih (k + 1)

/-- C8: an ordered scan returns rows whose primary keys are strictly
ascending, hence at most one row per key; and the harness's comparison —
walking the expected snapshot in ascending key order while consuming found
rows in sequence — succeeds only when the scan delivered its rows in that
ascending order. -/
theorem ordered_scan_strict_ascending (e : Engine) (T : Nat)
    (saved : SavedValues) (t : Nat) (rows : List ExpectedKeyValueRow)
    (hsnap : ∀ p ∈ saved, (p.2.filterMap id).Pairwise (fun a b => a.key < b.key))
    (hok : checkRowsMatchAtTimestamp saved t rows = []) :
    ((scanAt e T).Pairwise (fun a b => a.key < b.key)
      ∧ ((scanAt e T).map (fun r => r.key)).Nodup)
    ∧ rows.Pairwise (fun a b => a.key < b.key) := by
  refine ⟨⟨scanFrom_sorted T 0 e, ?_⟩, ?_⟩
  · rw [List.Nodup, List.pairwise_map]
    exact (scanFrom_sorted T 0 e).imp (fun h => ne_of_lt h)
  · have heq := (checkRowsMatch_eq_nil_iff saved t rows).mp hok
    rw [heq]
    unfold expectedRowsAt
    cases hf : saved.find? (fun p => decide (p.1 < t)) with
    | none => exact List.Pairwise.nil
    | some p => exact hsnap p (List.mem_of_find?_eq_some hf)

/-- The saved-values map used by the C8 witness. -/
def c8SavedExample : SavedValues :=
  [(4, [some ⟨0, some 2⟩, some ⟨1, none⟩])]

theorem ordered_scan_strict_ascending_witness :
    (∀ p ∈ c8SavedExample,
        (p.2.filterMap id).Pairwise
          (fun a b : ExpectedKeyValueRow => a.key < b.key))
    ∧ checkRowsMatchAtTimestamp c8SavedExample 5 [⟨0, some 2⟩, ⟨1, none⟩] = []
    ∧ (((scanAt [⟨[], [(1, some (some 3))]⟩] 2).Pairwise
          (fun a b => a.key < b.key)
        ∧ ((scanAt [⟨[], [(1, some (some 3))]⟩] 2).map (fun r => r.key)).Nodup)
      ∧ ([(⟨0, some 2⟩ : ExpectedKeyValueRow), ⟨1, none⟩]).Pairwise
          (fun a b => a.key < b.key)) :=
  ⟨by decide, by decide,
   ordered_scan_strict_ascending [⟨[], [(1, some (some 3))]⟩] 2 c8SavedExample 5
     [⟨0, some 2⟩, ⟨1, none⟩] (by decide) (by decide)⟩

/-!
## The model fuzz-case run (`FuzzTest::RunFuzzCase` over the modelled engine)

The harness runs a `MANUAL_FLUSH` session: the write ops built by
`InsertOrUpsertRow`/`MutateRow`/`DeleteRow` buffer in the session and are
applied as one mutation batch at `TEST_FLUSH_OPS` (`FlushSessionOrDie`),
sharing one commit timestamp.  The model keeps the session as a per-key
overlay of pending states, resolved against the committed engine.

Clock model (spec §4.1 logical mode, matching the harness's bookkeeping):
the counter advances on every `GetRow` scan and on every committed batch;
a batch's commit timestamp is the advanced counter value, which is also the
timestamp recorded into `saved_values_`; a snapshot scan at raw timestamp
`t` shows the mutations committed strictly before `t` (so a scan at a
recorded timestamp returns the *previous* batch's rows, which is what
`CheckRowsMatchAtTimestamp`'s strict `upper_bound` expects).
-/

/-- The state of one modelled fuzz-case run: the committed engine, the
session overlay (`none` = key untouched since the last flush), the logical
clock, and the harness shadow variables `cur_val`, `pending_val`,
`saved_values_` and the mutation counter `i` of `RunFuzzCase`. -/
structure RunState where
  engine : Engine
  overlay : List (Option RowState)
  now : Nat
  curVal : List (Option ExpectedKeyValueRow)
  pendingVal : List (Option ExpectedKeyValueRow)
  saved : SavedValues
  ctr : Nat
deriving DecidableEq, Repr

/-- The layered state of key `k` (an absent key reads as empty). -/
def engineKey (e : Engine) (k : Nat) : KeyState := e.getD k ⟨[], []⟩

/-- Translated from `FuzzTest::GetRow` (lines 305-324): a latest-mode point
read of key `k` — a scan with predicate `key == k` — returning the live row
or none.  The underlying read is the modelled engine's key read at the
current clock. -/
def GetRow (e : Engine) (now k : Nat) : Option ExpectedKeyValueRow :=
  match keyRead (engineKey e k) now with
  | some v => some ⟨(k : Int), v⟩
  | none => none

/-- The state of key `k` as the session sees it: the pending overlay entry
if the key was touched since the last flush, else the committed state. -/
def overlayState (st : RunState) (k : Nat) : RowState :=
  match st.overlay.getD k none with
  | some s => s
  | none => keyRead (engineKey st.engine k) st.now

/-- Modelled from the spec: route one committed mutation into the layered
store (§2 write data flow) — a key with an MRS chain is mutated in place in
the MRS; a key live only in a DRS generation gets a DMS entry on that
(newest) generation; an insert of a key that is absent (or tombstoned)
everywhere starts a fresh MRS chain. -/
def commitKey (ks : KeyState) (t : Nat) (s : RowState) : KeyState :=
  if ks.mrs ≠ [] then ⟨ks.gens, ks.mrs ++ [(t, s)]⟩
  else
    match ks.gens.getLast? with
    | none => ⟨ks.gens, [(t, s)]⟩
    | some g =>
      if lastState (genChain g) none ≠ none then
        ⟨ks.gens.dropLast ++ [⟨g.pre, g.redoFiles, g.dms ++ [(t, s)]⟩], ks.mrs⟩
      else
        ⟨ks.gens, [(t, s)]⟩

/-- Commit the batch: apply each touched key's final pending state to the
layered store at the batch's commit timestamp `t`. -/
def commitEngine (overlay : List (Option RowState)) (t : Nat) :
    Nat → Engine → Engine
  | _, [] => []
  | k, ks :: rest =>
    (match overlay.getD k none with
     | some s => commitKey ks t s
     | none => ks) :: commitEngine overlay t (k + 1) rest

/-- `saved_values_[t] = snap`: map insert with overwrite, keeping the
descending order (the new timestamp is the greatest). -/
def savedInsert (saved : SavedValues) (t : Nat) (snap : SavedSnapshot) :
    SavedValues :=
  (t, snap) :: saved.filter (fun p => decide (p.1 ≠ t))

/-- Modelled from the spec: a snapshot scan at raw timestamp `t` shows the
mutations committed strictly before `t` (the MVCC snapshot at `t`). -/
def scanRawAt (e : Engine) (t : Nat) : List ExpectedKeyValueRow :=
  match t with
  | 0 => []
  | Nat.succ t2 => scanAt e t2

/-- One `MutateRow` application of the `update_multiplier` loop (lines
653-657): builds the update with the current counter and applies it to the
session overlay. -/
def updateStep (st : RunState) (k : Nat) : Option RunState :=
  let pr := MutateRow (k : Int) st.ctr
  match applyWrite (overlayState st k) .TEST_UPDATE pr.1 with
  | none => none
  | some s2 =>
    some { st with ctr := st.ctr + 1,
                   overlay := st.overlay.set k (some s2),
                   pendingVal := st.pendingVal.set k (some pr.2) }

/-- The `for (int j = 0; j < update_multiplier; j++)` loop. -/
def updateLoop : Nat → RunState → Nat → Option RunState
  | 0, st, _ => some st
  | j + 1, st, k =>
    match updateStep st k with
    | none => none
    | some st2 => updateLoop j st2 k

/-- Translated from the loop body of `FuzzTest::RunFuzzCase` (lines
638-693) over the modelled engine: one `TestOp`.  `none` models a test
failure: a failed point-read check `EXPECT_EQ(cur_val[k], GetRow(k))`
(line 640), a rejected write (`FlushSessionOrDie` would die), or a
snapshot-scan mismatch (`CheckScanAtTimestamp`'s `FAIL`).  Each mutation's
`GetRow` advances the clock.  `TEST_RESTART_TS` leaves the state unchanged
per the spec's restart contract (§6: bootstrap reproduces exactly the
visible rows and history).  The flush/compaction ops act on every
qualifying key — the model's stand-in for the engine's biggest/worst
pick, which C2 shows is visibly irrelevant. -/
def runStep (m : Nat) (st : RunState) (op : TestOp) : Option RunState :=
  match op.type with
  | .TEST_INSERT | .TEST_INSERT_PK_ONLY | .TEST_UPSERT | .TEST_UPSERT_PK_ONLY =>
    if GetRow st.engine st.now op.val ≠ st.curVal.getD op.val none then none
    else
      let pr := InsertOrUpsertRow (op.val : Int) (st.ctr : Int)
                  (st.pendingVal.getD op.val none) op.type
      match applyWrite (overlayState st op.val) op.type pr.1 with
      | none => none
      | some s2 =>
        some { st with now := st.now + 1, ctr := st.ctr + 1,
                       overlay := st.overlay.set op.val (some s2),
                       pendingVal := st.pendingVal.set op.val (some pr.2) }
  | .TEST_UPDATE =>
    if GetRow st.engine st.now op.val ≠ st.curVal.getD op.val none then none
    else updateLoop m { st with now := st.now + 1 } op.val
  | .TEST_DELETE =>
    if GetRow st.engine st.now op.val ≠ st.curVal.getD op.val none then none
    else
      match applyWrite (overlayState st op.val) .TEST_DELETE none with
      | none => none
      | some s2 =>
        some { st with now := st.now + 1,
                       overlay := st.overlay.set op.val (some s2),
                       pendingVal := st.pendingVal.set op.val none }
  | .TEST_FLUSH_OPS =>
    if st.overlay.any (fun o => o.isSome) then
      some { engine := commitEngine st.overlay (st.now + 1) 0 st.engine,
             overlay := List.replicate st.overlay.length none,
             now := st.now + 1, curVal := st.pendingVal,
             pendingVal := st.pendingVal,
             saved := savedInsert st.saved (st.now + 1) st.pendingVal,
             ctr := st.ctr }
    else
      some { st with overlay := List.replicate st.overlay.length none,
                     curVal := st.pendingVal,
                     saved := savedInsert st.saved st.now st.pendingVal }
  | .TEST_FLUSH_TABLET =>
    some { st with engine := applyMaint .flushTablet st.engine }
  | .TEST_FLUSH_DELTAS =>
    some { st with engine := applyMaint (.flushDeltas (fun _ => true)) st.engine }
  | .TEST_MINOR_COMPACT_DELTAS =>
    some { st with engine := applyMaint (.minorCompactDeltas (fun _ => true)) st.engine }
  | .TEST_MAJOR_COMPACT_DELTAS =>
    some { st with engine := applyMaint (.majorCompactDeltas (fun _ => true)) st.engine }
  | .TEST_COMPACT_TABLET =>
    some { st with engine := applyMaint .compactTablet st.engine }
  | .TEST_RESTART_TS => some st
  | .TEST_SCAN_AT_TIMESTAMP =>
    if checkRowsMatchAtTimestamp st.saved op.val (scanRawAt st.engine op.val) = []
    then some st
    else none

/-- The op loop of `RunFuzzCase`. -/
def runOps (m : Nat) : List TestOp → RunState → Option RunState
  | [], st => some st
  | op :: rest, st =>
    match runStep m st op with
    | some st2 => runOps m rest st2
    | none => none

/-- The initial run state: empty tablet over `keyspace` keys, clock at 0,
empty shadow state. -/
def initRunState (keyspace : Nat) : RunState :=
  { engine := List.replicate keyspace ⟨[], []⟩,
    overlay := List.replicate keyspace none, now := 0,
    curVal := List.replicate keyspace none,
    pendingVal := List.replicate keyspace none, saved := [], ctr := 0 }

/-- Translated from `FuzzTest::RunFuzzCase` (lines 626-693) over the
modelled engine: validates the case (`ValidateFuzzCase`, whose `CHECK`s die
on an invalid case) and runs the ops; `m` is `update_multiplier`. -/
def RunFuzzCase (keyspace m : Nat) (test_ops : List TestOp) : Option RunState :=
  if ValidateFuzzCase keyspace test_ops
  then runOps m test_ops (initRunState keyspace)
  else none

/-- The ops of regression test `TestUpsert_PKOnlySchema` (lines 974-983),
on the PK-only schema (value cells never set). -/
def c6Ops : List TestOp :=
  [⟨.TEST_UPSERT_PK_ONLY, 1⟩, ⟨.TEST_DELETE, 1⟩, ⟨.TEST_UPSERT_PK_ONLY, 1⟩,
   ⟨.TEST_UPSERT_PK_ONLY, 1⟩, ⟨.TEST_FLUSH_OPS, 0⟩]

/-- The rows a finished run's latest scan returns (empty if the run
failed). -/
def runResultRows (r : Option RunState) : List ExpectedKeyValueRow :=
  match r with
  | some st => scanAt st.engine st.now
  | none => []

/-- The clock of a finished run (0 if the run failed). -/
def runResultNow (r : Option RunState) : Nat :=
  match r with
  | some st => st.now
  | none => 0

/-- C6: on a schema of only the primary-key column, the sequence
`UpsertPkOnly(1), Delete(1), UpsertPkOnly(1), UpsertPkOnly(1), FlushOps`
completes without any error and leaves exactly one live row with key 1;
the empty changelist a PK-only upsert produces against an existing row is
accepted as a no-op update (`applyWrite` keeps the row), and the batch
still commits and advances the commit timestamp (the run's clock reaches 5
and a snapshot is recorded). -/
theorem pk_only_empty_changelist_no_crash :
    (RunFuzzCase 2 1 c6Ops).isSome = true
    ∧ runResultRows (RunFuzzCase 2 1 c6Ops) = [⟨1, none⟩]
    ∧ runResultNow (RunFuzzCase 2 1 c6Ops) = 5
    ∧ (∀ v : Option Int, applyWrite (some v) .TEST_UPSERT_PK_ONLY none
         = some (some v)) :=
  ⟨by decide, by decide, by decide, fun _ => rfl⟩

/-!
### Invariants of the model run

The simulation invariant ties the committed engine to the harness's shadow
state: `cur_val` is the committed latest row per key, `pending_val` is the
session view per key, and every snapshot scan agrees with the
`saved_values_` map.
-/

theorem getD_set_self {α : Type} (l : List α) (k : Nat) (v d : α)
    (h : k < l.length) : (l.set k v).getD k d = v := by
  simp [List.getD_eq_getElem?_getD, List.getElem?_set_self, h]

theorem getD_set_ne {α : Type} (l : List α) (k j : Nat) (v d : α) (h : k ≠ j) :
    (l.set k v).getD j d = l.getD j d := by
  simp [List.getD_eq_getElem?_getD, List.getElem?_set_ne, h]

theorem getD_oob {α : Type} (l : List α) (k : Nat) (d : α) (h : l.length ≤ k) :
    l.getD k d = d := by
  simp [List.getD_eq_getElem?_getD, List.getElem?_eq_none, h]

theorem getD_replicate_lt {α : Type} (n k : Nat) (x d : α) (h : k < n) :
    (List.replicate n x).getD k d = x := by
  simp [List.getD_eq_getElem?_getD, List.getElem?_replicate, h]

theorem histAt_of_all_le (c : Chain) (T : Nat) (h : ∀ e ∈ c, e.1 ≤ T) :
    histAt c T = lastState c none := by
  unfold histAt
  rw [List.filter_eq_self.mpr (by intro e he; simpa using h e he)]

/-- A latest-mode read is stable across clock values past every committed
timestamp. -/
theorem keyRead_latest (ks : KeyState) (hwf : KeyWF ks) (T : Nat)
    (h : ∀ e ∈ keyHist ks, e.1 ≤ T) :
    keyRead ks T = lastState (keyHist ks) none := by
  rw [keyRead_eq ks hwf T, histAt_of_all_le _ _ h]

/-- Pointwise-equal key reads give equal scans. -/
theorem scanFrom_congr (T : Nat) :
    ∀ (k : Nat) (e e2 : Engine), e2.length = e.length →
      (∀ i, i < e.length →
        keyRead (e2.getD i ⟨[], []⟩) T = keyRead (e.getD i ⟨[], []⟩) T) →
      scanFrom k e2 T = scanFrom k e T := by
  intro k e
  induction e generalizing k with
  | nil =>
    intro e2 hlen _
    rw [List.length_eq_zero.mp hlen]
  | cons ks rest ih =>
    intro e2 hlen hpt
    cases e2 with
    | nil => simp at hlen
    | cons ks2 rest2 =>
      simp only [List.length_cons, Nat.succ.injEq] at hlen
      have h0 := hpt 0 (by simp)
      simp only [List.getD_cons_zero] at h0
      simp only [scanFrom]
      rw [h0]
      have hr := ih (k + 1) rest2 hlen (by
        intro i hi
        have := hpt (i + 1) (by simpa using Nat.succ_lt_succ hi)
        simpa [List.getD_cons_succ] using this)
      cases keyRead ks T <;> simp [hr]

/-- A scan collects exactly the non-`none` entries of any per-key vector
that matches the key reads. -/
theorem scanFrom_eq_filterMap (T : Nat) :
    ∀ (k0 : Nat) (e : Engine) (vals : List (Option ExpectedKeyValueRow)),
      vals.length = e.length →
      (∀ i, i < e.length →
        vals.getD i none
          = (keyRead (e.getD i ⟨[], []⟩) T).map
              (fun v => ⟨((k0 + i : Nat) : Int), v⟩)) →
      scanFrom k0 e T = vals.filterMap id := by
  intro k0 e
  induction e generalizing k0 with
  | nil =>
    intro vals hlen _
    rw [List.length_eq_zero.mp hlen]
    rfl
  | cons ks rest ih =>
    intro vals hlen hpt
    cases vals with
    | nil => simp at hlen
    | cons v0 vrest =>
      simp only [List.length_cons, Nat.succ.injEq] at hlen
      have h0 := hpt 0 (by simp)
      simp only [List.getD_cons_zero, List.getD_cons_zero, Nat.add_zero] at h0
      have hr := ih (k0 + 1) vrest hlen (by
        intro i hi
        have hx := hpt (i + 1) (by simp only [List.length_cons]; omega)
        simp only [List.getD_cons_succ] at hx
        have harith : k0 + (i + 1) = k0 + 1 + i := by omega
        rw [hx, harith])
      simp only [scanFrom]
      cases hread : keyRead ks T with
      | some v =>
        rw [hread] at h0
        simp only [Option.map_some'] at h0
        subst h0
        simp [List.filterMap_cons, hr]
      | none =>
        rw [hread] at h0
        simp only [Option.map_none'] at h0
        subst h0
        simp [List.filterMap_cons, hr]

theorem genChain_dms_snoc (g : KeyPhys) (x : Nat × RowState) :
    genChain ⟨g.pre, g.redoFiles, g.dms ++ [x]⟩ = genChain g ++ [x] := by
  simp [genChain, KeyPhys.redoAll, List.append_assoc]

/-- Committing one mutation appends exactly one entry to the key's
history, whichever layer receives it. -/
theorem commitKey_hist (ks : KeyState) (t : Nat) (s : RowState) :
    keyHist (commitKey ks t s) = keyHist ks ++ [(t, s)] := by
  unfold commitKey
  split_ifs with hm
  · simp [keyHist, List.append_assoc]
  · have hm2 : ks.mrs = [] := not_not.mp hm
    cases hg : ks.gens.getLast? with
    | none =>
      have hgens : ks.gens = [] := List.getLast?_eq_none_iff.mp hg
      simp [keyHist, hgens, hm2]
    | some g =>
      dsimp only []
      split_ifs with hlive
      · have hsplit : ks.gens.dropLast ++ [g] = ks.gens :=
          List.dropLast_append_getLast? g (Option.mem_def.mpr hg)
        rw [keyHist, keyHist, hm2]
        conv_rhs => rw [← hsplit]
        simp [genChain_dms_snoc, List.append_assoc]
      · simp [keyHist, hm2]

theorem ChainsOK_snoc_last (A : List Chain) (c : Chain) (x : Nat × RowState)
    (h : ChainsOK (A ++ [c])) (hc : c ≠ []) : ChainsOK (A ++ [c ++ [x]]) := by
  induction A with
  | nil => exact ⟨by simp, trivial⟩
  | cons a A2 ih =>
    obtain ⟨h1, h2⟩ := h
    refine ⟨?_, ih h2⟩
    intro _
    refine h1 ?_
    show (A2 ++ [c]).flatten ≠ []
    rw [List.flatten_append]
    intro hnil
    exact hc (by simpa using (List.append_eq_nil.mp hnil).2)

theorem ChainsOK_snoc_mid (A : List Chain) (c : Chain) (x : Nat × RowState)
    (h : ChainsOK (A ++ [c, []])) (hc : c ≠ []) :
    ChainsOK (A ++ [c ++ [x], []]) := by
  induction A with
  | nil =>
    exact ⟨by intro hn; simp at hn, by intro hn; simp at hn, trivial⟩
  | cons a A2 ih =>
    obtain ⟨h1, h2⟩ := h
    refine ⟨?_, ih h2⟩
    intro _
    refine h1 ?_
    show (A2 ++ [c, []]).flatten ≠ []
    rw [List.flatten_append]
    intro hnil
    have h3 := (List.append_eq_nil.mp hnil).2
    simp only [List.flatten_cons, List.flatten_nil, List.append_nil] at h3
    exact hc h3

theorem ChainsOK_of_all_ends_none (G : List Chain) (d : Chain)
    (h : ∀ c ∈ G, lastState c none = none) : ChainsOK (G ++ [d]) := by
  induction G with
  | nil => exact ⟨by intro hn; simp at hn, trivial⟩
  | cons c G2 ih =>
    refine ⟨fun _ => h c (by simp), ih (fun c2 hc2 => h c2 (by simp [hc2]))⟩

theorem ChainsOK_all_ends_none (G : List Chain) (hok : ChainsOK (G ++ [[]]))
    (hne : ∀ c ∈ G, c ≠ []) (hlast : lastState G.flatten none = none) :
    ∀ c ∈ G, lastState c none = none := by
  induction G with
  | nil => intro c hc; exact absurd hc (by simp)
  | cons c G2 ih =>
    obtain ⟨h1, h2⟩ := hok
    by_cases hG2 : G2 = []
    · subst hG2
      intro c2 hc2
      simp only [List.mem_singleton] at hc2
      subst hc2
      simpa [lastState_append] using hlast
    · have hG2ne : G2.flatten ≠ [] := by
        intro hnil
        obtain ⟨b, hb⟩ := List.exists_mem_of_ne_nil G2 hG2
        exact hne b (by simp [hb]) (List.flatten_eq_nil_iff.mp hnil b hb)
      have hcend : lastState c none = none := by
        refine h1 ?_
        show (G2 ++ [[]]).flatten ≠ []
        rw [List.flatten_append]
        intro hnil
        exact hG2ne (List.append_eq_nil.mp hnil).1
      have hlast2 : lastState G2.flatten none = none := by
        rw [List.flatten_cons, lastState_append] at hlast
        rw [lastState_ne_nil G2.flatten none (lastState c none) hG2ne]
        exact hlast
      intro c2 hc2
      rcases List.mem_cons.mp hc2 with rfl | hc3
      · exact hcend
      · exact ih h2 (fun x hx => hne x (by simp [hx])) hlast2 c2 hc3

/-- Commit preserves well-formedness of the key when the commit timestamp
is past every existing entry. -/
theorem commitKey_wf (ks : KeyState) (hwf : KeyWF ks) (t : Nat) (s : RowState)
    (hts : ∀ e ∈ keyHist ks, e.1 < t) : KeyWF (commitKey ks t s) := by
  obtain ⟨hne, hok, hasc⟩ := hwf
  have hasc2 : ChainAsc (keyHist ks ++ [(t, s)]) := by
    rw [ChainAsc, List.pairwise_append]
    refine ⟨hasc, List.pairwise_singleton _ _, ?_⟩
    intro a ha b hb
    simp only [List.mem_singleton] at hb
    subst hb
    exact hts a ha
  have hasc3 : ChainAsc (keyHist (commitKey ks t s)) := by
    rw [commitKey_hist]
    exact hasc2
  refine ⟨?_, ?_, hasc3⟩ <;> unfold commitKey <;> split_ifs with hm
  · exact hne
  · cases hg : ks.gens.getLast? with
    | none => exact hne
    | some g =>
      dsimp only []
      split_ifs with hlive
      · intro g2 hg2
        simp only [] at hg2
        rcases List.mem_append.mp hg2 with hg3 | hg3
        · exact hne g2 ((List.dropLast_sublist ks.gens).subset hg3)
        · simp only [List.mem_singleton] at hg3
          subst hg3
          exact hne g (getLast?_mem_self hg)
      · exact hne
  · show ChainsOK (ks.gens.map genChain ++ [ks.mrs ++ [(t, s)]])
    exact ChainsOK_snoc_last _ _ _ hok hm
  · have hm2 : ks.mrs = [] := not_not.mp hm
    have hgne : ∀ g2 ∈ ks.gens, genChain g2 ≠ [] := by
      intro g2 hg2 hc
      exact hne g2 hg2 (List.append_eq_nil.mp hc).1
    cases hg : ks.gens.getLast? with
    | none =>
      show ChainsOK (ks.gens.map genChain ++ [[(t, s)]])
      have hgens : ks.gens = [] := List.getLast?_eq_none_iff.mp hg
      rw [hgens]
      exact ⟨by intro hn; simp at hn, trivial⟩
    | some g =>
      dsimp only []
      have hsplit : ks.gens.dropLast ++ [g] = ks.gens :=
        List.dropLast_append_getLast? g (Option.mem_def.mpr hg)
      have hok0 : ChainsOK (ks.gens.map genChain ++ [[]]) := by
        rw [hm2] at hok
        exact hok
      split_ifs with hlive
      · show ChainsOK
          ((ks.gens.dropLast ++ [(⟨g.pre, g.redoFiles, g.dms ++ [(t, s)]⟩ : KeyPhys)]).map
            genChain ++ [ks.mrs])
        have hok2 : ChainsOK ((ks.gens.dropLast).map genChain ++ [genChain g, []]) := by
          have heq : (ks.gens.dropLast).map genChain ++ [genChain g, []]
              = ks.gens.map genChain ++ [[]] := by
            conv_rhs => rw [← hsplit]
            simp
          rw [heq]
          exact hok0
        have hgc : genChain g ≠ [] := hgne g (getLast?_mem_self hg)
        have hres := ChainsOK_snoc_mid _ _ (t, s) hok2 hgc
        rw [hm2]
        simpa [genChain_dms_snoc] using hres
      · show ChainsOK (ks.gens.map genChain ++ [[(t, s)]])
        have hend : lastState ((ks.gens.map genChain).flatten) none = none := by
          conv_lhs => rw [← hsplit]
          rw [List.map_append, List.flatten_append, lastState_append]
          simp only [List.map_cons, List.map_nil, List.flatten_cons,
            List.flatten_nil, List.append_nil]
          rw [lastState_ne_nil _ _ none (hgne g (getLast?_mem_self hg))]
          exact not_not.mp hlive
        refine ChainsOK_of_all_ends_none _ _ ?_
        refine ChainsOK_all_ends_none _ hok0 ?_ hend
        intro c hc
        obtain ⟨g2, hg2, rfl⟩ := List.mem_map.mp hc
        exact hgne g2 hg2

/-- The read of a committed key: the new entry from its commit timestamp
on, the old reading before it. -/
theorem commitKey_read (ks : KeyState) (hwf : KeyWF ks) (t : Nat) (s : RowState)
    (hts : ∀ e ∈ keyHist ks, e.1 < t) (T : Nat) :
    keyRead (commitKey ks t s) T = if t ≤ T then s else keyRead ks T := by
  rw [keyRead_eq _ (commitKey_wf ks hwf t s hts) T, commitKey_hist, histAt_append]
  simp only [List.filter_cons, List.filter_nil]
  by_cases h : t ≤ T
  · rw [if_pos (by simpa using h), if_pos h]
    rfl
  · rw [if_neg (by simpa using h), if_neg h]
    rw [← keyRead_eq ks hwf T]
    rfl

theorem commitEngine_length (ov : List (Option RowState)) (t : Nat) :
    ∀ (k : Nat) (e : Engine), (commitEngine ov t k e).length = e.length := by
  intro k e
  induction e generalizing k with
  | nil => rfl
  | cons ks rest ih => simp [commitEngine, ih]

theorem commitEngine_getD (ov : List (Option RowState)) (t : Nat) :
    ∀ (k0 : Nat) (e : Engine) (j : Nat), j < e.length →
      (commitEngine ov t k0 e).getD j ⟨[], []⟩
        = match ov.getD (k0 + j) none with
          | some s => commitKey (e.getD j ⟨[], []⟩) t s
          | none => e.getD j ⟨[], []⟩ := by
  intro k0 e
  induction e generalizing k0 with
  | nil => intro j hj; simp at hj
  | cons ks rest ih =>
    intro j hj
    cases j with
    | zero => simp [commitEngine]
    | succ j2 =>
      simp only [commitEngine, List.getD_cons_succ]
      have hlt : j2 < rest.length := by simpa [Nat.succ_lt_succ_iff] using hj
      have hrec := ih (k0 + 1) j2 hlt
      have harith : k0 + 1 + j2 = k0 + (j2 + 1) := by omega
      rw [hrec, harith]

theorem find?_filter_ne (saved : SavedValues) (t T : Nat) (hT : T ≤ t) :
    (saved.filter (fun p => decide (p.1 ≠ t))).find? (fun p => decide (p.1 < T))
      = saved.find? (fun p => decide (p.1 < T)) := by
  induction saved with
  | nil => rfl
  | cons p rest ih =>
    simp only [List.filter_cons]
    by_cases hp : p.1 = t
    · rw [if_neg (by simpa using hp)]
      rw [List.find?_cons_of_neg _ (by simp only [decide_eq_true_eq]; omega)]
      exact ih
    · rw [if_pos (by simpa using hp)]
      by_cases hlt : p.1 < T
      · rw [List.find?_cons_of_pos _ (by simpa using hlt),
          List.find?_cons_of_pos _ (by simpa using hlt)]
      · rw [List.find?_cons_of_neg _ (by simpa using hlt),
          List.find?_cons_of_neg _ (by simpa using hlt)]
        exact ih

theorem expectedRowsAt_savedInsert_le (saved : SavedValues) (t : Nat)
    (snap : SavedSnapshot) (T : Nat) (hT : T ≤ t) :
    expectedRowsAt (savedInsert saved t snap) T = expectedRowsAt saved T := by
  unfold expectedRowsAt savedInsert
  rw [List.find?_cons_of_neg _ (by simp only [decide_eq_true_eq]; omega)]
  rw [find?_filter_ne saved t T hT]

theorem expectedRowsAt_savedInsert_gt (saved : SavedValues) (t : Nat)
    (snap : SavedSnapshot) (T : Nat) (hT : t < T) :
    expectedRowsAt (savedInsert saved t snap) T = snap.filterMap id := by
  unfold expectedRowsAt savedInsert
  rw [List.find?_cons_of_pos _ (by simpa using hT)]

theorem savedInsert_desc (saved : SavedValues) (t : Nat) (snap : SavedSnapshot)
    (hd : saved.Pairwise (fun a b => b.1 < a.1)) (hb : ∀ p ∈ saved, p.1 ≤ t) :
    (savedInsert saved t snap).Pairwise (fun a b => b.1 < a.1) := by
  unfold savedInsert
  refine List.pairwise_cons.mpr ⟨?_, hd.filter _⟩
  intro q hq
  have hq2 := List.mem_of_mem_filter hq
  have hle := hb q hq2
  have hne := List.of_mem_filter hq
  simp only [decide_eq_true_eq] at hne
  show q.1 < t
  omega

theorem savedInsert_bound (saved : SavedValues) (t : Nat) (snap : SavedSnapshot)
    (hb : ∀ p ∈ saved, p.1 ≤ t) :
    ∀ p ∈ savedInsert saved t snap, p.1 ≤ t := by
  intro p hp
  unfold savedInsert at hp
  rcases List.mem_cons.mp hp with rfl | hp2
  · exact le_refl _
  · exact hb p (List.mem_of_mem_filter hp2)

/-- Reading an absent key gives nothing at every timestamp. -/
theorem keyRead_empty (T : Nat) : keyRead ⟨[], []⟩ T = none := rfl

theorem default_keyWF : KeyWF ⟨[], []⟩ := by decide

theorem engineKey_oob (e : Engine) (k : Nat) (h : e.length ≤ k) :
    engineKey e k = ⟨[], []⟩ := getD_oob e k _ h

theorem engineKey_mem (e : Engine) (k : Nat) (h : k < e.length) :
    engineKey e k ∈ e := by
  unfold engineKey
  rw [List.getD_eq_getElem e _ h]
  exact List.getElem_mem h

theorem engineKey_wf (e : Engine) (hwf : EngineWF e) (k : Nat) :
    KeyWF (engineKey e k) := by
  by_cases hk : k < e.length
  · exact hwf _ (engineKey_mem e k hk)
  · rw [engineKey_oob e k (by omega)]
    exact default_keyWF

/-- A key read is determined by the committed history: it is the latest
state once the clock passes every commit. -/
theorem keyRead_engineKey_stable (e : Engine) (now : Nat) (hwf : EngineWF e)
    (htsb : ∀ ks ∈ e, ∀ x ∈ keyHist ks, x.1 ≤ now) (k T : Nat) (hT : now ≤ T) :
    keyRead (engineKey e k) T = keyRead (engineKey e k) now := by
  by_cases hk : k < e.length
  · have hmem := engineKey_mem e k hk
    have h1 := keyRead_latest _ (hwf _ hmem) T
      (fun x hx => le_trans (htsb _ hmem x hx) hT)
    have h2 := keyRead_latest _ (hwf _ hmem) now (htsb _ hmem)
    rw [h1, h2]
  · rw [engineKey_oob e k (by omega)]
    rw [keyRead_empty, keyRead_empty]

theorem getD_map_default (f : KeyState → KeyState) (hfix : f ⟨[], []⟩ = ⟨[], []⟩)
    (e : Engine) (k : Nat) :
    (e.map f).getD k ⟨[], []⟩ = f (e.getD k ⟨[], []⟩) := by
  by_cases hk : k < e.length
  · rw [List.getD_eq_getElem _ _ (by simpa using hk), List.getD_eq_getElem _ _ hk]
    simp
  · rw [getD_oob _ _ _ (by simp; omega), getD_oob _ _ _ (by omega), hfix]

theorem mapSel_getD (f : KeyState → KeyState) (hfix : f ⟨[], []⟩ = ⟨[], []⟩)
    (sel : Nat → Bool) :
    ∀ (k0 : Nat) (e : Engine) (k : Nat),
      (mapSel f sel k0 e).getD k ⟨[], []⟩
        = if sel (k0 + k) then f (e.getD k ⟨[], []⟩) else e.getD k ⟨[], []⟩ := by
  intro k0 e
  induction e generalizing k0 with
  | nil =>
    intro k
    simp only [mapSel]
    split_ifs <;> simp [hfix]
  | cons ks rest ih =>
    intro k
    cases k with
    | zero => simp [mapSel]
    | succ k2 =>
      simp only [mapSel, List.getD_cons_succ]
      have := ih (k0 + 1) k2
      have harith : k0 + 1 + k2 = k0 + (k2 + 1) := by omega
      rw [this, harith]

theorem mapSel_mem (f : KeyState → KeyState) (sel : Nat → Bool) :
    ∀ (k0 : Nat) (e : Engine) (ks2 : KeyState), ks2 ∈ mapSel f sel k0 e →
      ∃ ks ∈ e, ks2 = f ks ∨ ks2 = ks := by
  intro k0 e
  induction e generalizing k0 with
  | nil => intro ks2 h; exact absurd h (by simp [mapSel])
  | cons ks rest ih =>
    intro ks2 h
    simp only [mapSel, List.mem_cons] at h
    rcases h with rfl | h2
    · split_ifs with hs
      · exact ⟨ks, by simp, Or.inl rfl⟩
      · exact ⟨ks, by simp, Or.inr rfl⟩
    · obtain ⟨x, hx, hor⟩ := ih (k0 + 1) ks2 h2
      exact ⟨x, by simp [hx], hor⟩

theorem flushMRSKey_fix : flushMRSKey ⟨[], []⟩ = ⟨[], []⟩ := by decide

theorem flushDMSKey_fix : flushDMSKey ⟨[], []⟩ = ⟨[], []⟩ := by decide

theorem minorCompactKey_fix : minorCompactKey ⟨[], []⟩ = ⟨[], []⟩ := by decide

theorem majorCompactKey_fix : majorCompactKey ⟨[], []⟩ = ⟨[], []⟩ := by decide

theorem compactAllKey_fix : compactAllKey ⟨[], []⟩ = ⟨[], []⟩ := by decide

theorem mapSel_length (f : KeyState → KeyState) (sel : Nat → Bool) :
    ∀ (k0 : Nat) (e : Engine), (mapSel f sel k0 e).length = e.length := by
  intro k0 e
  induction e generalizing k0 with
  | nil => rfl
  | cons ks rest ih => simp [mapSel, ih]

theorem applyMaint_length (mo : MaintOp) (e : Engine) :
    (applyMaint mo e).length = e.length := by
  cases mo <;> simp [applyMaint, mapSel_length]

theorem flushDMSKey_hist (ks : KeyState) : keyHist (flushDMSKey ks) = keyHist ks :=
  mapGen_hist flushDMSGen flushDMSGen_chain ks

theorem minorCompactKey_hist (ks : KeyState) :
    keyHist (minorCompactKey ks) = keyHist ks :=
  mapGen_hist minorCompactGen minorCompactGen_chain ks

theorem majorCompactKey_hist (ks : KeyState) :
    keyHist (majorCompactKey ks) = keyHist ks :=
  mapGen_hist majorCompactGen majorCompactGen_chain ks

theorem applyMaint_engineKey_hist (mo : MaintOp) (e : Engine) (k : Nat) :
    keyHist (engineKey (applyMaint mo e) k) = keyHist (engineKey e k) := by
  cases mo with
  | flushTablet =>
    show keyHist ((e.map flushMRSKey).getD k ⟨[], []⟩) = _
    rw [getD_map_default flushMRSKey flushMRSKey_fix]
    exact flushMRSKey_hist _
  | flushDeltas sel =>
    show keyHist ((mapSel flushDMSKey sel 0 e).getD k ⟨[], []⟩) = _
    rw [mapSel_getD flushDMSKey flushDMSKey_fix sel 0 e k]
    split_ifs
    · exact flushDMSKey_hist _
    · rfl
  | minorCompactDeltas sel =>
    show keyHist ((mapSel minorCompactKey sel 0 e).getD k ⟨[], []⟩) = _
    rw [mapSel_getD minorCompactKey minorCompactKey_fix sel 0 e k]
    split_ifs
    · exact minorCompactKey_hist _
    · rfl
  | majorCompactDeltas sel =>
    show keyHist ((mapSel majorCompactKey sel 0 e).getD k ⟨[], []⟩) = _
    rw [mapSel_getD majorCompactKey majorCompactKey_fix sel 0 e k]
    split_ifs
    · exact majorCompactKey_hist _
    · rfl
  | compactTablet =>
    show keyHist ((e.map compactAllKey).getD k ⟨[], []⟩) = _
    rw [getD_map_default compactAllKey compactAllKey_fix]
    exact compactAllKey_hist _

theorem applyMaint_engineKey_read (mo : MaintOp) (e : Engine) (hwf : EngineWF e)
    (k T : Nat) :
    keyRead (engineKey (applyMaint mo e) k) T = keyRead (engineKey e k) T := by
  have hwfk := engineKey_wf e hwf k
  cases mo with
  | flushTablet =>
    show keyRead ((e.map flushMRSKey).getD k ⟨[], []⟩) T = _
    rw [getD_map_default flushMRSKey flushMRSKey_fix]
    exact flushMRSKey_read T _ hwfk
  | flushDeltas sel =>
    show keyRead ((mapSel flushDMSKey sel 0 e).getD k ⟨[], []⟩) T = _
    rw [mapSel_getD flushDMSKey flushDMSKey_fix sel 0 e k]
    split_ifs
    · exact flushDMSKey_read T _ hwfk
    · rfl
  | minorCompactDeltas sel =>
    show keyRead ((mapSel minorCompactKey sel 0 e).getD k ⟨[], []⟩) T = _
    rw [mapSel_getD minorCompactKey minorCompactKey_fix sel 0 e k]
    split_ifs
    · exact minorCompactKey_read T _ hwfk
    · rfl
  | majorCompactDeltas sel =>
    show keyRead ((mapSel majorCompactKey sel 0 e).getD k ⟨[], []⟩) T = _
    rw [mapSel_getD majorCompactKey majorCompactKey_fix sel 0 e k]
    split_ifs
    · exact majorCompactKey_read T _ hwfk
    · rfl
  | compactTablet =>
    show keyRead ((e.map compactAllKey).getD k ⟨[], []⟩) T = _
    rw [getD_map_default compactAllKey compactAllKey_fix]
    exact compactAllKey_read T _ hwfk

theorem applyMaint_hist_mem (mo : MaintOp) (e : Engine) :
    ∀ ks2 ∈ applyMaint mo e, ∃ ks ∈ e, keyHist ks2 = keyHist ks := by
  cases mo with
  | flushTablet =>
    intro ks2 h
    obtain ⟨x, hx, rfl⟩ := List.mem_map.mp h
    exact ⟨x, hx, flushMRSKey_hist x⟩
  | flushDeltas sel =>
    intro ks2 h
    obtain ⟨x, hx, hor⟩ := mapSel_mem flushDMSKey sel 0 e ks2 h
    rcases hor with rfl | rfl
    · exact ⟨x, hx, flushDMSKey_hist x⟩
    · exact ⟨_, hx, rfl⟩
  | minorCompactDeltas sel =>
    intro ks2 h
    obtain ⟨x, hx, hor⟩ := mapSel_mem minorCompactKey sel 0 e ks2 h
    rcases hor with rfl | rfl
    · exact ⟨x, hx, minorCompactKey_hist x⟩
    · exact ⟨_, hx, rfl⟩
  | majorCompactDeltas sel =>
    intro ks2 h
    obtain ⟨x, hx, hor⟩ := mapSel_mem majorCompactKey sel 0 e ks2 h
    rcases hor with rfl | rfl
    · exact ⟨x, hx, majorCompactKey_hist x⟩
    · exact ⟨_, hx, rfl⟩
  | compactTablet =>
    intro ks2 h
    obtain ⟨x, hx, rfl⟩ := List.mem_map.mp h
    exact ⟨x, hx, compactAllKey_hist x⟩

/-- The row a point read reports for key `k` in layered state `s`. -/
def rowOf (k : Nat) (s : RowState) : Option ExpectedKeyValueRow :=
  s.map (fun v => ⟨(k : Int), v⟩)

theorem GetRow_eq_rowOf (e : Engine) (now k : Nat) :
    GetRow e now k = rowOf k (keyRead (engineKey e k) now) := by
  unfold GetRow rowOf
  cases keyRead (engineKey e k) now <;> rfl

/-- The run invariant: shadow lengths match the engine, the engine is
well-formed, every committed timestamp is at or below the clock, `cur_val`
mirrors a committed point read, and `pending_val` mirrors the session's
view. -/
structure RunInv (st : RunState) : Prop where
  olen : st.overlay.length = st.engine.length
  clen : st.curVal.length = st.engine.length
  plen : st.pendingVal.length = st.engine.length
  wf : EngineWF st.engine
  tsb : ∀ ks ∈ st.engine, ∀ x ∈ keyHist ks, x.1 ≤ st.now
  latest : ∀ k, st.curVal.getD k none = rowOf k (keyRead (engineKey st.engine k) st.now)
  pend : ∀ k, st.pendingVal.getD k none = rowOf k (overlayState st k)

theorem runInv_init (keyspace : Nat) : RunInv (initRunState keyspace) := by
  refine ⟨by simp [initRunState], by simp [initRunState], by simp [initRunState],
          ?_, ?_, ?_, ?_⟩
  · intro ks hks
    rw [List.eq_of_mem_replicate hks]
    exact default_keyWF
  · intro ks hks x hx
    rw [List.eq_of_mem_replicate hks] at hx
    simp [keyHist] at hx
  · intro k
    have he : engineKey (initRunState keyspace).engine k = ⟨[], []⟩ := by
      unfold engineKey initRunState
      by_cases hk : k < keyspace
      · rw [getD_replicate_lt _ _ _ _ hk]
      · exact getD_oob _ _ _ (by simp; omega)
    rw [he, keyRead_empty]
    by_cases hk : k < keyspace
    · rw [show (initRunState keyspace).curVal = List.replicate keyspace none from rfl,
          getD_replicate_lt _ _ _ _ hk]
      rfl
    · rw [show (initRunState keyspace).curVal = List.replicate keyspace none from rfl,
          getD_oob _ _ _ (by simp; omega)]
      rfl
  · intro k
    have he : engineKey (initRunState keyspace).engine k = ⟨[], []⟩ := by
      unfold engineKey initRunState
      by_cases hk : k < keyspace
      · rw [getD_replicate_lt _ _ _ _ hk]
      · exact getD_oob _ _ _ (by simp; omega)
    have ho : overlayState (initRunState keyspace) k = none := by
      unfold overlayState
      have h2 : (initRunState keyspace).overlay.getD k none = none := by
        rw [show (initRunState keyspace).overlay = List.replicate keyspace none from rfl]
        by_cases hk : k < keyspace
        · exact getD_replicate_lt _ _ _ _ hk
        · exact getD_oob _ _ _ (by simp; omega)
      rw [h2, he, keyRead_empty]
    rw [ho]
    by_cases hk : k < keyspace
    · rw [show (initRunState keyspace).pendingVal = List.replicate keyspace none from rfl,
          getD_replicate_lt _ _ _ _ hk]
      rfl
    · rw [show (initRunState keyspace).pendingVal = List.replicate keyspace none from rfl,
          getD_oob _ _ _ (by simp; omega)]
      rfl

/-- Advancing the clock preserves the invariant: every committed timestamp
stays behind it, so committed reads are unchanged. -/
theorem runInv_bump (st : RunState) (inv : RunInv st) :
    RunInv { st with now := st.now + 1 } := by
  have hstable : ∀ k, keyRead (engineKey st.engine k) (st.now + 1)
      = keyRead (engineKey st.engine k) st.now :=
    fun k => keyRead_engineKey_stable st.engine st.now inv.wf inv.tsb k
      (st.now + 1) (by omega)
  refine ⟨inv.olen, inv.clen, inv.plen, inv.wf,
          fun ks hks x hx => le_trans (inv.tsb ks hks x hx) (Nat.le_succ st.now), ?_, ?_⟩
  · intro k
    show st.curVal.getD k none = rowOf k (keyRead (engineKey st.engine k) (st.now + 1))
    rw [hstable k]
    exact inv.latest k
  · intro k
    have h2 : overlayState { st with now := st.now + 1 } k = overlayState st k := by
      unfold overlayState
      cases st.overlay.getD k none with
      | some s => rfl
      | none => exact hstable k
    rw [show ({ st with now := st.now + 1 } : RunState).pendingVal = st.pendingVal from rfl,
        h2]
    exact inv.pend k

/-- Writing one key into the session overlay (with its matching expected
row into `pending_val`) preserves the invariant. -/
theorem runInv_set (st : RunState) (inv : RunInv st) (k c : Nat) (s2 : RowState)
    (q : Option ExpectedKeyValueRow) (hq : q = rowOf k s2) :
    RunInv { st with ctr := c, overlay := st.overlay.set k (some s2),
                     pendingVal := st.pendingVal.set k q } := by
  refine ⟨by simp [inv.olen], inv.clen, by simp [inv.plen], inv.wf, inv.tsb,
          inv.latest, ?_⟩
  intro j
  by_cases hj : j = k
  · subst hj
    by_cases hlt : j < st.pendingVal.length
    · rw [show ({ st with ctr := c, overlay := st.overlay.set j (some s2),
                          pendingVal := st.pendingVal.set j q } : RunState).pendingVal
            = st.pendingVal.set j q from rfl,
          getD_set_self _ _ _ _ hlt]
      have hol : j < st.overlay.length := by rw [inv.olen, ← inv.plen]; exact hlt
      have h2 : overlayState { st with ctr := c, overlay := st.overlay.set j (some s2),
                                       pendingVal := st.pendingVal.set j q } j = s2 := by
        unfold overlayState
        rw [show ({ st with ctr := c, overlay := st.overlay.set j (some s2),
                            pendingVal := st.pendingVal.set j q } : RunState).overlay
              = st.overlay.set j (some s2) from rfl,
            getD_set_self _ _ _ _ hol]
      rw [h2, hq]
    · have hol : ¬ j < st.overlay.length := by rw [inv.olen, ← inv.plen]; exact hlt
      have hl : (st.pendingVal.set j q).getD j none = none :=
        getD_oob _ _ _ (by simp; omega)
      have hov : (st.overlay.set j (some s2)).getD j none = none :=
        getD_oob _ _ _ (by simp; omega)
      have hoR : overlayState { st with ctr := c, overlay := st.overlay.set j (some s2),
                                        pendingVal := st.pendingVal.set j q } j
          = keyRead (engineKey st.engine j) st.now := by
        unfold overlayState
        rw [show ({ st with ctr := c, overlay := st.overlay.set j (some s2),
                            pendingVal := st.pendingVal.set j q } : RunState).overlay
              = st.overlay.set j (some s2) from rfl,
            hov]
      have hpd := inv.pend j
      rw [getD_oob _ _ _ (by omega)] at hpd
      have hos : overlayState st j = keyRead (engineKey st.engine j) st.now := by
        unfold overlayState
        rw [getD_oob _ _ _ (by omega)]
      rw [hos] at hpd
      show (st.pendingVal.set j q).getD j none = _
      rw [hl, hoR]
      exact hpd
  · rw [show ({ st with ctr := c, overlay := st.overlay.set k (some s2),
                        pendingVal := st.pendingVal.set k q } : RunState).pendingVal
          = st.pendingVal.set k q from rfl,
        getD_set_ne _ _ _ _ _ (fun hh => hj hh.symm)]
    have h2 : overlayState { st with ctr := c, overlay := st.overlay.set k (some s2),
                                     pendingVal := st.pendingVal.set k q } j
        = overlayState st j := by
      unfold overlayState
      rw [show ({ st with ctr := c, overlay := st.overlay.set k (some s2),
                          pendingVal := st.pendingVal.set k q } : RunState).overlay
            = st.overlay.set k (some s2) from rfl,
          getD_set_ne _ _ _ _ _ (fun hh => hj hh.symm)]
    rw [h2]
    exact inv.pend j

/-- The harness's expected row for an insert or upsert matches the
modelled server-side result exactly, when the pending shadow row it reads
is the point-read image of the state the write resolves against. -/
theorem applyWrite_rowOf (k : Nat) (c : Int) (cur : RowState) (ty : TestOpType)
    (hty : ty = .TEST_INSERT ∨ ty = .TEST_INSERT_PK_ONLY
         ∨ ty = .TEST_UPSERT ∨ ty = .TEST_UPSERT_PK_ONLY)
    (s2 : RowState)
    (h : applyWrite cur ty (InsertOrUpsertRow (k : Int) c (rowOf k cur) ty).1 = some s2) :
    rowOf k s2 = some (InsertOrUpsertRow (k : Int) c (rowOf k cur) ty).2 := by
  rcases hty with rfl | rfl | rfl | rfl
  · cases cur with
    | some v => exact absurd h (by simp [applyWrite])
    | none =>
      by_cases hc : c % 2 ≠ 0
      · have hiu : InsertOrUpsertRow (k : Int) c (rowOf k none) .TEST_INSERT
            = (some none, ⟨(k : Int), none⟩) := by
          unfold InsertOrUpsertRow
          rw [if_pos hc]
        rw [hiu] at h ⊢
        replace h : (some (some none) : Option RowState) = some s2 := h
        injection h with h
        subst h
        rfl
      · have hiu : InsertOrUpsertRow (k : Int) c (rowOf k none) .TEST_INSERT
            = (some (some c), ⟨(k : Int), some c⟩) := by
          unfold InsertOrUpsertRow
          rw [if_neg hc]
        rw [hiu] at h ⊢
        replace h : (some (some (some c)) : Option RowState) = some s2 := h
        injection h with h
        subst h
        rfl
  · cases cur with
    | some v => exact absurd h (by simp [applyWrite])
    | none =>
      replace h : (some (some none) : Option RowState) = some s2 := h
      injection h with h
      subst h
      rfl
  · by_cases hc : c % 2 ≠ 0
    · have hiu : InsertOrUpsertRow (k : Int) c (rowOf k cur) .TEST_UPSERT
          = (some none, ⟨(k : Int), none⟩) := by
        unfold InsertOrUpsertRow
        rw [if_pos hc]
      rw [hiu] at h ⊢
      cases cur with
      | some v =>
        replace h : (some (some none) : Option RowState) = some s2 := h
        injection h with h
        subst h
        rfl
      | none =>
        replace h : (some (some none) : Option RowState) = some s2 := h
        injection h with h
        subst h
        rfl
    · have hiu : InsertOrUpsertRow (k : Int) c (rowOf k cur) .TEST_UPSERT
          = (some (some c), ⟨(k : Int), some c⟩) := by
        unfold InsertOrUpsertRow
        rw [if_neg hc]
      rw [hiu] at h ⊢
      cases cur with
      | some v =>
        replace h : (some (some (some c)) : Option RowState) = some s2 := h
        injection h with h
        subst h
        rfl
      | none =>
        replace h : (some (some (some c)) : Option RowState) = some s2 := h
        injection h with h
        subst h
        rfl
  · cases cur with
    | some v =>
      replace h : (some (some v) : Option RowState) = some s2 := h
      injection h with h
      subst h
      rfl
    | none =>
      replace h : (some (some none) : Option RowState) = some s2 := h
      injection h with h
      subst h
      rfl

/-- Same correspondence for `MutateRow` updates. -/
theorem applyWrite_update_rowOf (k nv : Nat) (cur s2 : RowState)
    (h : applyWrite cur .TEST_UPDATE (MutateRow (k : Int) nv).1 = some s2) :
    rowOf k s2 = some (MutateRow (k : Int) nv).2 := by
  cases cur with
  | none => exact absurd h (by simp [applyWrite])
  | some v =>
    by_cases hc : nv % 2 ≠ 0
    · have hm : MutateRow (k : Int) nv = (some none, ⟨(k : Int), none⟩) := by
        unfold MutateRow
        rw [if_pos hc]
      rw [hm] at h ⊢
      replace h : (some (some none) : Option RowState) = some s2 := h
      injection h with h
      subst h
      rfl
    · have hm : MutateRow (k : Int) nv
          = (some (some (nv : Int)), ⟨(k : Int), some (nv : Int)⟩) := by
        unfold MutateRow
        rw [if_neg hc]
      rw [hm] at h ⊢
      replace h : (some (some (some (nv : Int))) : Option RowState) = some s2 := h
      injection h with h
      subst h
      rfl

/-- A successful delete always leaves the key absent. -/
theorem applyWrite_delete_rowOf (cur s2 : RowState)
    (h : applyWrite cur .TEST_DELETE none = some s2) : s2 = none := by
  cases cur with
  | none => exact absurd h (by simp [applyWrite])
  | some v =>
    replace h : (some none : Option RowState) = some s2 := h
    injection h with h
    exact h.symm

theorem updateStep_inv (st st2 : RunState) (k : Nat) (inv : RunInv st)
    (h : updateStep st k = some st2) : RunInv st2 := by
  simp only [updateStep] at h
  cases ha : applyWrite (overlayState st k) .TEST_UPDATE (MutateRow (k : Int) st.ctr).1 with
  | none => rw [ha] at h; exact absurd h (by simp)
  | some s2 =>
    rw [ha] at h
    injection h with h
    subst h
    exact runInv_set st inv k (st.ctr + 1) s2 (some (MutateRow (k : Int) st.ctr).2)
      (applyWrite_update_rowOf k st.ctr (overlayState st k) s2 ha).symm

theorem updateLoop_inv (j : Nat) : ∀ (st st2 : RunState) (k : Nat), RunInv st →
    updateLoop j st k = some st2 → RunInv st2 := by
  induction j with
  | zero =>
    intro st st2 k inv h
    replace h : some st = some st2 := h
    injection h with h
    subst h
    exact inv
  | succ j ih =>
    intro st st2 k inv h
    rw [updateLoop] at h
    cases hs : updateStep st k with
    | none => rw [hs] at h; exact absurd h (by simp)
    | some stm =>
      rw [hs] at h
      exact ih stm st2 k (updateStep_inv st stm k inv hs) h

theorem commitEngine_mem (ov : List (Option RowState)) (t : Nat) :
    ∀ (k0 : Nat) (e : Engine) (ks2 : KeyState), ks2 ∈ commitEngine ov t k0 e →
      ∃ ks ∈ e, ks2 = ks ∨ ∃ s, ks2 = commitKey ks t s := by
  intro k0 e
  induction e generalizing k0 with
  | nil => intro ks2 h; simp [commitEngine] at h
  | cons ks rest ih =>
    intro ks2 h
    rw [commitEngine] at h
    rcases List.mem_cons.mp h with heq | hmem
    · refine ⟨ks, List.mem_cons_self ks rest, ?_⟩
      cases hov : ov.getD k0 none with
      | some s =>
        rw [hov] at heq
        exact Or.inr ⟨s, heq⟩
      | none =>
        rw [hov] at heq
        exact Or.inl heq
    · obtain ⟨ks3, hks3, hor⟩ := ih (k0 + 1) ks2 hmem
      exact ⟨ks3, List.mem_cons_of_mem _ hks3, hor⟩

theorem commitEngine_wf (ov : List (Option RowState)) (t : Nat) (e : Engine)
    (hwf : EngineWF e) (htsb : ∀ ks ∈ e, ∀ x ∈ keyHist ks, x.1 < t) :
    EngineWF (commitEngine ov t 0 e) := by
  intro ks2 h
  obtain ⟨ks, hks, hor⟩ := commitEngine_mem ov t 0 e ks2 h
  rcases hor with rfl | ⟨s, rfl⟩
  · exact hwf _ hks
  · exact commitKey_wf ks (hwf ks hks) t s (htsb ks hks)

theorem commitEngine_tsb (ov : List (Option RowState)) (t : Nat) (e : Engine)
    (htsb : ∀ ks ∈ e, ∀ x ∈ keyHist ks, x.1 < t) :
    ∀ ks2 ∈ commitEngine ov t 0 e, ∀ x ∈ keyHist ks2, x.1 ≤ t := by
  intro ks2 h x hx
  obtain ⟨ks, hks, hor⟩ := commitEngine_mem ov t 0 e ks2 h
  rcases hor with rfl | ⟨s, rfl⟩
  · exact le_of_lt (htsb _ hks x hx)
  · rw [commitKey_hist] at hx
    rcases List.mem_append.mp hx with h1 | h1
    · exact le_of_lt (htsb ks hks x h1)
    · rw [List.mem_singleton.mp h1]

theorem commitEngine_engineKey (ov : List (Option RowState)) (t : Nat) (e : Engine)
    (hov : ov.length ≤ e.length) (k : Nat) :
    engineKey (commitEngine ov t 0 e) k
      = match ov.getD k none with
        | some s => commitKey (engineKey e k) t s
        | none => engineKey e k := by
  by_cases hk : k < e.length
  · have h1 := commitEngine_getD ov t 0 e k hk
    unfold engineKey
    simpa using h1
  · have h1 : engineKey (commitEngine ov t 0 e) k = ⟨[], []⟩ :=
      engineKey_oob _ _ (by rw [commitEngine_length]; omega)
    have h3 : ov.getD k none = none := getD_oob _ _ _ (by omega)
    rw [h1, h3, engineKey_oob e k (by omega)]

/-- Committing the session batch at `now + 1` preserves the invariant:
after the flush, every key's committed read at the new clock is exactly
what the session saw, so promoting `pending_val` to `cur_val` keeps
`cur_val` a faithful point-read mirror. -/
theorem runInv_flush_touched (st : RunState) (inv : RunInv st) :
    RunInv { engine := commitEngine st.overlay (st.now + 1) 0 st.engine,
             overlay := List.replicate st.overlay.length none,
             now := st.now + 1, curVal := st.pendingVal,
             pendingVal := st.pendingVal,
             saved := savedInsert st.saved (st.now + 1) st.pendingVal,
             ctr := st.ctr } := by
  have htlt : ∀ ks ∈ st.engine, ∀ x ∈ keyHist ks, x.1 < st.now + 1 :=
    fun ks hks x hx => Nat.lt_succ_of_le (inv.tsb ks hks x hx)
  have htsk : ∀ k, ∀ x ∈ keyHist (engineKey st.engine k), x.1 < st.now + 1 := by
    intro k
    by_cases hk : k < st.engine.length
    · exact htlt _ (engineKey_mem _ _ hk)
    · rw [engineKey_oob _ _ (by omega)]
      intro x hx
      simp [keyHist] at hx
  have hkey : ∀ k,
      keyRead (engineKey (commitEngine st.overlay (st.now + 1) 0 st.engine) k) (st.now + 1)
        = overlayState st k := by
    intro k
    rw [commitEngine_engineKey st.overlay (st.now + 1) st.engine (le_of_eq inv.olen) k]
    cases hov : st.overlay.getD k none with
    | some s =>
      show keyRead (commitKey (engineKey st.engine k) (st.now + 1) s) (st.now + 1) = _
      rw [commitKey_read _ (engineKey_wf st.engine inv.wf k) _ _ (htsk k),
          if_pos (le_refl _)]
      unfold overlayState
      rw [hov]
    | none =>
      show keyRead (engineKey st.engine k) (st.now + 1) = _
      rw [keyRead_engineKey_stable st.engine st.now inv.wf inv.tsb k (st.now + 1)
            (Nat.le_succ _)]
      unfold overlayState
      rw [hov]
  refine ⟨?_, ?_, ?_, commitEngine_wf _ _ _ inv.wf htlt, commitEngine_tsb _ _ _ htlt,
          ?_, ?_⟩
  · show (List.replicate st.overlay.length (none : Option RowState)).length
        = (commitEngine st.overlay (st.now + 1) 0 st.engine).length
    rw [List.length_replicate, commitEngine_length]
    exact inv.olen
  · show st.pendingVal.length = (commitEngine st.overlay (st.now + 1) 0 st.engine).length
    rw [commitEngine_length]
    exact inv.plen
  · show st.pendingVal.length = (commitEngine st.overlay (st.now + 1) 0 st.engine).length
    rw [commitEngine_length]
    exact inv.plen
  · intro k
    show st.pendingVal.getD k none = _
    rw [hkey k]
    exact inv.pend k
  · intro k
    have hrep : (List.replicate st.overlay.length (none : Option RowState)).getD k none
        = none := by
      by_cases hk : k < st.overlay.length
      · exact getD_replicate_lt _ _ _ _ hk
      · exact getD_oob _ _ _ (by simp; omega)
    show st.pendingVal.getD k none = _
    unfold overlayState
    rw [show ({ engine := commitEngine st.overlay (st.now + 1) 0 st.engine,
                overlay := List.replicate st.overlay.length none,
                now := st.now + 1, curVal := st.pendingVal,
                pendingVal := st.pendingVal,
                saved := savedInsert st.saved (st.now + 1) st.pendingVal,
                ctr := st.ctr } : RunState).overlay
          = List.replicate st.overlay.length none from rfl,
        hrep]
    rw [show ({ engine := commitEngine st.overlay (st.now + 1) 0 st.engine,
                overlay := List.replicate st.overlay.length none,
                now := st.now + 1, curVal := st.pendingVal,
                pendingVal := st.pendingVal,
                saved := savedInsert st.saved (st.now + 1) st.pendingVal,
                ctr := st.ctr } : RunState).engine
          = commitEngine st.overlay (st.now + 1) 0 st.engine from rfl]
    rw [hkey k]
    exact inv.pend k

/-- An empty flush (no pending mutation) only records the snapshot; the
session overlay it clears was already all-`none`. -/
theorem runInv_flush_untouched (st : RunState) (inv : RunInv st)
    (hno : st.overlay.any (fun o => o.isSome) = false) :
    RunInv { st with overlay := List.replicate st.overlay.length none,
                     curVal := st.pendingVal,
                     saved := savedInsert st.saved st.now st.pendingVal } := by
  have hov : ∀ k, st.overlay.getD k none = none := by
    intro k
    by_cases hk : k < st.overlay.length
    · rw [List.getD_eq_getElem _ _ hk]
      have hmem : st.overlay[k] ∈ st.overlay := List.getElem_mem hk
      have h2 := (List.any_eq_false.mp hno) _ hmem
      cases hcase : st.overlay[k] with
      | none => rfl
      | some s => rw [hcase] at h2; simp at h2
    · exact getD_oob _ _ _ (by omega)
  have hos : ∀ k, overlayState st k = keyRead (engineKey st.engine k) st.now := by
    intro k
    unfold overlayState
    rw [hov k]
  have hrep : ∀ k, (List.replicate st.overlay.length (none : Option RowState)).getD k none
      = none := by
    intro k
    by_cases hk : k < st.overlay.length
    · exact getD_replicate_lt _ _ _ _ hk
    · exact getD_oob _ _ _ (by simp; omega)
  refine ⟨?_, ?_, inv.plen, inv.wf, inv.tsb, ?_, ?_⟩
  · show (List.replicate st.overlay.length (none : Option RowState)).length = st.engine.length
    rw [List.length_replicate]
    exact inv.olen
  · exact inv.plen
  · intro k
    show st.pendingVal.getD k none = _
    rw [← hos k]
    exact inv.pend k
  · intro k
    show st.pendingVal.getD k none = _
    unfold overlayState
    rw [show ({ st with overlay := List.replicate st.overlay.length none,
                        curVal := st.pendingVal,
                        saved := savedInsert st.saved st.now st.pendingVal } : RunState).overlay
          = List.replicate st.overlay.length none from rfl,
        hrep k]
    rw [← hos k]
    exact inv.pend k

/-- Maintenance operations preserve the invariant: they reshape the layers
but not any key's history, so every read is unchanged. -/
theorem runInv_maint (st : RunState) (inv : RunInv st) (mo : MaintOp) :
    RunInv { st with engine := applyMaint mo st.engine } := by
  have hlen := applyMaint_length mo st.engine
  refine ⟨?_, ?_, ?_, applyMaint_wf mo st.engine inv.wf, ?_, ?_, ?_⟩
  · show st.overlay.length = (applyMaint mo st.engine).length
    rw [hlen]
    exact inv.olen
  · show st.curVal.length = (applyMaint mo st.engine).length
    rw [hlen]
    exact inv.clen
  · show st.pendingVal.length = (applyMaint mo st.engine).length
    rw [hlen]
    exact inv.plen
  · intro ks2 h x hx
    obtain ⟨ks, hks, heq⟩ := applyMaint_hist_mem mo st.engine ks2 h
    rw [heq] at hx
    exact inv.tsb ks hks x hx
  · intro k
    show st.curVal.getD k none
        = rowOf k (keyRead (engineKey (applyMaint mo st.engine) k) st.now)
    rw [applyMaint_engineKey_read mo st.engine inv.wf k st.now]
    exact inv.latest k
  · intro k
    have h2 : overlayState { st with engine := applyMaint mo st.engine } k
        = overlayState st k := by
      unfold overlayState
      cases hg : st.overlay.getD k none with
      | some s => rfl
      | none => exact applyMaint_engineKey_read mo st.engine inv.wf k st.now
    rw [h2]
    exact inv.pend k

theorem runStep_inv (m : Nat) (st st2 : RunState) (op : TestOp) (inv : RunInv st)
    (h : runStep m st op = some st2) : RunInv st2 := by
  obtain ⟨ty, v⟩ := op
  cases ty with
  | TEST_INSERT =>
    simp only [runStep] at h
    split_ifs at h with hge
    cases ha : applyWrite (overlayState st v) .TEST_INSERT
          (InsertOrUpsertRow (v : Int) (st.ctr : Int)
            (st.pendingVal.getD v none) .TEST_INSERT).1 with
      | none => rw [ha] at h; exact absurd h (by simp)
      | some s2 =>
        rw [ha] at h
        injection h with h
        subst h
        have hpend := inv.pend v
        rw [hpend] at ha
        have hrow := applyWrite_rowOf v (st.ctr : Int) (overlayState st v) .TEST_INSERT
          (Or.inl rfl) s2 ha
        exact runInv_set { st with now := st.now + 1 } (runInv_bump st inv) v
          (st.ctr + 1) s2
          (some (InsertOrUpsertRow (v : Int) (st.ctr : Int)
            (st.pendingVal.getD v none) .TEST_INSERT).2)
          (by rw [hpend]; exact hrow.symm)
  | TEST_INSERT_PK_ONLY =>
    simp only [runStep] at h
    split_ifs at h with hge
    cases ha : applyWrite (overlayState st v) .TEST_INSERT_PK_ONLY
          (InsertOrUpsertRow (v : Int) (st.ctr : Int)
            (st.pendingVal.getD v none) .TEST_INSERT_PK_ONLY).1 with
      | none => rw [ha] at h; exact absurd h (by simp)
      | some s2 =>
        rw [ha] at h
        injection h with h
        subst h
        have hpend := inv.pend v
        rw [hpend] at ha
        have hrow := applyWrite_rowOf v (st.ctr : Int) (overlayState st v)
          .TEST_INSERT_PK_ONLY (Or.inr (Or.inl rfl)) s2 ha
        exact runInv_set { st with now := st.now + 1 } (runInv_bump st inv) v
          (st.ctr + 1) s2
          (some (InsertOrUpsertRow (v : Int) (st.ctr : Int)
            (st.pendingVal.getD v none) .TEST_INSERT_PK_ONLY).2)
          (by rw [hpend]; exact hrow.symm)
  | TEST_UPSERT =>
    simp only [runStep] at h
    split_ifs at h with hge
    cases ha : applyWrite (overlayState st v) .TEST_UPSERT
          (InsertOrUpsertRow (v : Int) (st.ctr : Int)
            (st.pendingVal.getD v none) .TEST_UPSERT).1 with
      | none => rw [ha] at h; exact absurd h (by simp)
      | some s2 =>
        rw [ha] at h
        injection h with h
        subst h
        have hpend := inv.pend v
        rw [hpend] at ha
        have hrow := applyWrite_rowOf v (st.ctr : Int) (overlayState st v) .TEST_UPSERT
          (Or.inr (Or.inr (Or.inl rfl))) s2 ha
        exact runInv_set { st with now := st.now + 1 } (runInv_bump st inv) v
          (st.ctr + 1) s2
          (some (InsertOrUpsertRow (v : Int) (st.ctr : Int)
            (st.pendingVal.getD v none) .TEST_UPSERT).2)
          (by rw [hpend]; exact hrow.symm)
  | TEST_UPSERT_PK_ONLY =>
    simp only [runStep] at h
    split_ifs at h with hge
    cases ha : applyWrite (overlayState st v) .TEST_UPSERT_PK_ONLY
          (InsertOrUpsertRow (v : Int) (st.ctr : Int)
            (st.pendingVal.getD v none) .TEST_UPSERT_PK_ONLY).1 with
      | none => rw [ha] at h; exact absurd h (by simp)
      | some s2 =>
        rw [ha] at h
        injection h with h
        subst h
        have hpend := inv.pend v
        rw [hpend] at ha
        have hrow := applyWrite_rowOf v (st.ctr : Int) (overlayState st v)
          .TEST_UPSERT_PK_ONLY (Or.inr (Or.inr (Or.inr rfl))) s2 ha
        exact runInv_set { st with now := st.now + 1 } (runInv_bump st inv) v
          (st.ctr + 1) s2
          (some (InsertOrUpsertRow (v : Int) (st.ctr : Int)
            (st.pendingVal.getD v none) .TEST_UPSERT_PK_ONLY).2)
          (by rw [hpend]; exact hrow.symm)
  | TEST_UPDATE =>
    simp only [runStep] at h
    split_ifs at h with hge
    exact updateLoop_inv m { st with now := st.now + 1 } st2 v (runInv_bump st inv) h
  | TEST_DELETE =>
    simp only [runStep] at h
    split_ifs at h with hge
    cases ha : applyWrite (overlayState st v) .TEST_DELETE none with
      | none => rw [ha] at h; exact absurd h (by simp)
      | some s2 =>
        rw [ha] at h
        injection h with h
        subst h
        have hs2 := applyWrite_delete_rowOf _ _ ha
        exact runInv_set { st with now := st.now + 1 } (runInv_bump st inv) v st.ctr
          s2 none (by rw [hs2]; rfl)
  | TEST_FLUSH_OPS =>
    simp only [runStep] at h
    split_ifs at h with hany
    · injection h with h
      subst h
      exact runInv_flush_touched st inv
    · injection h with h
      subst h
      exact runInv_flush_untouched st inv (by simpa using hany)
  | TEST_FLUSH_TABLET =>
    simp only [runStep] at h
    injection h with h
    subst h
    exact runInv_maint st inv .flushTablet
  | TEST_FLUSH_DELTAS =>
    simp only [runStep] at h
    injection h with h
    subst h
    exact runInv_maint st inv (.flushDeltas (fun _ => true))
  | TEST_MINOR_COMPACT_DELTAS =>
    simp only [runStep] at h
    injection h with h
    subst h
    exact runInv_maint st inv (.minorCompactDeltas (fun _ => true))
  | TEST_MAJOR_COMPACT_DELTAS =>
    simp only [runStep] at h
    injection h with h
    subst h
    exact runInv_maint st inv (.majorCompactDeltas (fun _ => true))
  | TEST_COMPACT_TABLET =>
    simp only [runStep] at h
    injection h with h
    subst h
    exact runInv_maint st inv .compactTablet
  | TEST_RESTART_TS =>
    simp only [runStep] at h
    injection h with h
    subst h
    exact inv
  | TEST_SCAN_AT_TIMESTAMP =>
    simp only [runStep] at h
    split_ifs at h with hc
    injection h with h
    subst h
    exact inv

theorem runOps_inv (m : Nat) : ∀ (ops : List TestOp) (st st2 : RunState),
    RunInv st → runOps m ops st = some st2 → RunInv st2 := by
  intro ops
  induction ops with
  | nil =>
    intro st st2 inv h
    replace h : some st = some st2 := h
    injection h with h
    subst h
    exact inv
  | cons op rest ih =>
    intro st st2 inv h
    simp only [runOps] at h
    cases hs : runStep m st op with
    | none => rw [hs] at h; exact absurd h (by simp)
    | some stm =>
      rw [hs] at h
      exact ih stm st2 (runStep_inv m st stm op inv hs) h

theorem runOps_append (m : Nat) (l1 l2 : List TestOp) :
    ∀ (st : RunState), runOps m (l1 ++ l2) st
      = match runOps m l1 st with
        | some stm => runOps m l2 stm
        | none => none := by
  induction l1 with
  | nil => intro st; rfl
  | cons op rest ih =>
    intro st
    simp only [List.cons_append, runOps]
    cases runStep m st op with
    | none => rfl
    | some stm => exact ih stm

/-- C3: at every point in a fuzz-case run — after any prefix of an
accepted case's op sequence — a latest-mode point read (`GetRow`, a scan
with predicate `key == k`) of every key returns exactly the shadow model's
`cur_val` entry: the value recorded for the key at the most recent
`FlushOps`, or absent for a deleted or never-inserted key.  In particular,
immediately after a batch commits (`cur_val` becomes that batch's
`pending_val`), every key the batch mutated reads back as the latest value
the batch wrote. -/
theorem point_reads_match_shadow (keyspace m : Nat) (ops pre suf : List TestOp)
    (hsplit : ops = pre ++ suf)
    (hrun : (RunFuzzCase keyspace m ops).isSome = true) :
    ∃ st, runOps m pre (initRunState keyspace) = some st
      ∧ ∀ k, GetRow st.engine st.now k = st.curVal.getD k none := by
  unfold RunFuzzCase at hrun
  split_ifs at hrun with hv
  · subst hsplit
    rw [runOps_append] at hrun
    cases hp : runOps m pre (initRunState keyspace) with
    | none => rw [hp] at hrun; simp at hrun
    | some st =>
      refine ⟨st, rfl, ?_⟩
      have inv := runOps_inv m pre (initRunState keyspace) st (runInv_init keyspace) hp
      intro k
      rw [GetRow_eq_rowOf]
      exact (inv.latest k).symm
  · simp at hrun

/-- Witness: the accepted case `Insert(0); FlushOps` over keyspace 2 with
update multiplier 2, stopped after its first op. -/
theorem point_reads_match_shadow_witness :
    ∃ st, runOps 2 [⟨.TEST_INSERT, 0⟩] (initRunState 2) = some st
      ∧ ∀ k, GetRow st.engine st.now k = st.curVal.getD k none :=
  point_reads_match_shadow 2 2 [⟨.TEST_INSERT, 0⟩, ⟨.TEST_FLUSH_OPS, 0⟩]
    [⟨.TEST_INSERT, 0⟩] [⟨.TEST_FLUSH_OPS, 0⟩] rfl (by decide)

end KuduFuzz
